import Mathlib

/-!
Verification development for the content-normalization and page-composition
pipeline of the repository (content_extractor.py, transform_xhs.py,
notion_handler.py, api.py).  Strings are embedded as `List Char`; the Python
string primitives used by the code (`replace`, `strip`, `split`, `join`,
substring test `in`, `startswith`, slicing) are modelled below.  Network-bound
collaborators (the Cloudinary uploader, HTTP HEAD requests, the Notion client)
are passed in as explicit oracle functions, mirroring the spec's collaborator
interfaces.
-/

/-- The whitespace class used by Python's `str.strip()` / regex `\s`
(ASCII whitespace, the C1 control separators, NEL, NBSP and the Unicode
space separators). -/
def pyIsSpace (c : Char) : Bool :=
  c ∈ [' ', '\t', '\n', '\r', '\x0b', '\x0c',
       '\x1c', '\x1d', '\x1e', '\x1f', '\u0085', '\u00A0',
       '\u1680', '\u2000', '\u2001', '\u2002', '\u2003', '\u2004', '\u2005',
       '\u2006', '\u2007', '\u2008', '\u2009', '\u200A',
       '\u2028', '\u2029', '\u202F', '\u205F', '\u3000']

/-- Python `s.startswith(pat)` on character lists. -/
def pyStartsWith : List Char → List Char → Bool
  | [], _ => true
  | _ :: _, [] => false
  | p :: ps, c :: cs => (p == c) && pyStartsWith ps cs

/-- Python's substring operator `pat in s` (contiguous occurrence). -/
def pyIn (pat : List Char) : List Char → Bool
  | [] => pat.isEmpty
  | s@(_ :: rest) => pyStartsWith pat s || pyIn pat rest

/-- ASCII lowercasing of one character (Python `str.lower` restricted to the
ASCII letters, which covers every key of the platform table). -/
def lowerChar (c : Char) : Char :=
  if 'A' ≤ c ∧ c ≤ 'Z' then Char.ofNat (c.toNat + 32) else c

/-- Python `url.lower()`. -/
def pyLower (s : List Char) : List Char := s.map lowerChar

/-- Python `s.strip()`: drop whitespace from both ends. -/
def pyStrip (s : List Char) : List Char :=
  ((s.dropWhile pyIsSpace).reverse.dropWhile pyIsSpace).reverse

/-- Python `sep.join(parts)`. -/
def pyJoin (sep : List Char) : List (List Char) → List Char
  | [] => []
  | [x] => x
  | x :: xs => x ++ sep ++ pyJoin sep xs

/-- Python `content.split("\n")` (always returns at least one piece). -/
def splitNl : List Char → List (List Char)
  | [] => [[]]
  | c :: rest =>
    if c = '\n' then [] :: splitNl rest
    else
      match splitNl rest with
      | [] => [[c]]
      | p :: ps => (c :: p) :: ps

/-- Worker for Python `s.replace(pat, rep)` (leftmost, non-overlapping,
replacement text not rescanned).  The fuel argument is a bound on the number
of scan steps; every step consumes at least one input character, so fuel
`s.length` is always enough.  `pat` is nonempty at every call site. -/
def pyReplaceGo (pat rep : List Char) : Nat → List Char → List Char
  | _, [] => []
  | 0, s => s
  | f + 1, c :: rest =>
    if pyStartsWith pat (c :: rest) then
      rep ++ pyReplaceGo pat rep f ((c :: rest).drop pat.length)
    else
      c :: pyReplaceGo pat rep f rest

/-- Python `s.replace(pat, rep)`. -/
def pyReplace (s pat rep : List Char) : List Char :=
  pyReplaceGo pat rep s.length s

/-- Index of the last newline in a list, if any. -/
def lastNlIdx : List Char → Option Nat
  | [] => none
  | c :: rest =>
    match lastNlIdx rest with
    | some i => some (i + 1)
    | none => if c = '\n' then some 0 else none

/-- Worker for Python `re.sub(r"\n\s*\n", "\n\n", s)`: at each newline the
greedy `\s*` consumes the maximal whitespace run and then backtracks to the
last newline inside that run; the match is replaced by two newlines and
scanning resumes after it.  Fuel as in `pyReplaceGo`. -/
def pySubGo : Nat → List Char → List Char
  | _, [] => []
  | 0, s => s
  | f + 1, c :: rest =>
    if c = '\n' then
      match lastNlIdx (rest.takeWhile pyIsSpace) with
      | some i => '\n' :: '\n' :: pySubGo f (rest.drop (i + 1))
      | none => c :: pySubGo f rest
    else
      c :: pySubGo f rest

/-- Python `re.sub(r"\n\s*\n", "\n\n", s)`. -/
def pySubNl (s : List Char) : List Char := pySubGo s.length s

def chBackslash : Char := Char.ofNat 92

def chQuote : Char := Char.ofNat 39

def chDQuote : Char := Char.ofNat 34

/-- Model of `clean_markdown_text` (notion_handler.py): normalize `<br>` variants to
newlines, unescape `\'`, `\"`, `\n`, collapse blank-line runs, then strip. -/
def clean_markdown_text (text : List Char) : List Char :=
  let t1 := pyReplace text ("<br>".toList) ['\n']
  let t2 := pyReplace t1 ("<br/>".toList) ['\n']
  let t3 := pyReplace t2 ("<br />".toList) ['\n']
  let t4 := pyReplace t3 [chBackslash, chQuote] [chQuote]
  let t5 := pyReplace t4 [chBackslash, chDQuote] [chDQuote]
  let t6 := pyReplace t5 [chBackslash, 'n'] ['\n']
  pyStrip (pySubNl t6)

/-- Worker for the slicing loop `while paragraph: chunk = paragraph[:m]; ...`
(and for the final-validation re-slicing).  Fuel as in `pyReplaceGo`: each
step consumes `m ≥ 1` characters, so fuel `p.length` is always enough. -/
def chunksOfGo (m : Nat) : Nat → List Char → List (List Char)
  | _, [] => []
  | 0, p => [p]
  | f + 1, p => p.take m :: chunksOfGo m f (p.drop m)

/-- Split `p` into consecutive slices of `m` characters (last one shorter). -/
def chunksOf (m : Nat) (p : List Char) : List (List Char) :=
  chunksOfGo m p.length p

/-- The mutable state of the paragraph-packing loop in `split_content`:
finished chunks, the paragraphs of the chunk being accumulated, and the
tracked length counter `current_length`. -/
structure SplitSt where
  chunks : List (List Char)
  cur : List (List Char)
  curLen : Nat

/-- One iteration of `for paragraph in paragraphs` in `split_content`. -/
def stepPara (m : Nat) (s : SplitSt) (p : List Char) : SplitSt :=
  if p.length > m then
    let ch := if s.cur.isEmpty then s.chunks else s.chunks ++ [pyJoin ['\n'] s.cur]
    ⟨ch ++ chunksOf m p, [], 0⟩
  else if s.curLen + p.length + 1 > m then
    ⟨s.chunks ++ [pyJoin ['\n'] s.cur], [p], p.length⟩
  else
    ⟨s.chunks, s.cur ++ [p], s.curLen + p.length + 1⟩

/-- The paragraph-packing loop of `split_content`, including the trailing
`if current_chunk: chunks.append(...)`. -/
def splitLoop (m : Nat) (ps : List (List Char)) : List (List Char) :=
  let s := ps.foldl (stepPara m) ⟨[], [], 0⟩
  if s.cur.isEmpty then s.chunks else s.chunks ++ [pyJoin ['\n'] s.cur]

/-- The final validation pass of `split_content`: any chunk longer than 2000
characters is re-sliced into 1900-character pieces. -/
def finalPass (c : List Char) : List (List Char) :=
  if c.length > 2000 then chunksOf 1900 c else [c]

/-- Model of `split_content` (notion_handler.py): clean the text, split into
paragraphs, greedily pack them under `max_length` (default 1900 at the only
call site), force-split oversized paragraphs, then run the validation pass. -/
def split_content (content : List Char) (max_length : Nat) : List (List Char) :=
  (splitLoop max_length (splitNl (clean_markdown_text content))).flatMap finalPass

/-- State of the tagged (instrumented) paragraph-packing loop.  It mirrors
`SplitSt` but each produced chunk carries a flag: `true` means the chunk is a
continuation slice of a force-split paragraph (no newline is re-inserted
before it when reconstructing), `false` means the chunk starts at a paragraph
boundary. -/
structure TagSt where
  chunks : List (List Char × Bool)
  cur : List (List Char)
  curLen : Nat

/-- Tag the slices of a force-split paragraph: the first slice starts at a
paragraph boundary, the later slices are continuations. -/
def sliceTags (m : Nat) (p : List Char) : List (List Char × Bool) :=
  match chunksOf m p with
  | [] => []
  | c :: cs => (c, false) :: cs.map (fun d => (d, true))

/-- Instrumented version of `stepPara`; identical control flow, chunks are
tagged. -/
def stepParaT (m : Nat) (s : TagSt) (p : List Char) : TagSt :=
  if p.length > m then
    let ch := if s.cur.isEmpty then s.chunks else s.chunks ++ [(pyJoin ['\n'] s.cur, false)]
    ⟨ch ++ sliceTags m p, [], 0⟩
  else if s.curLen + p.length + 1 > m then
    ⟨s.chunks ++ [(pyJoin ['\n'] s.cur, false)], [p], p.length⟩
  else
    ⟨s.chunks, s.cur ++ [p], s.curLen + p.length + 1⟩

/-- Final flush of the instrumented loop. -/
def flushT (s : TagSt) : List (List Char × Bool) :=
  if s.cur.isEmpty then s.chunks else s.chunks ++ [(pyJoin ['\n'] s.cur, false)]

/-- Instrumented version of `splitLoop`. -/
def splitLoopT (m : Nat) (ps : List (List Char)) : List (List Char × Bool) :=
  flushT (ps.foldl (stepParaT m) ⟨[], [], 0⟩)

/-- Instrumented version of `finalPass`: re-slices keep the head chunk's tag,
continuation slices are tagged `true`. -/
def finalPassT (cb : List Char × Bool) : List (List Char × Bool) :=
  if cb.1.length > 2000 then
    match chunksOf 1900 cb.1 with
    | [] => []
    | d :: ds => (d, cb.2) :: ds.map (fun e => (e, true))
  else [cb]

/-- Instrumented version of `split_content`: same chunks, each tagged with
whether it continues a force-split paragraph. -/
def split_content_tagged (content : List Char) (max_length : Nat) : List (List Char × Bool) :=
  (splitLoopT max_length (splitNl (clean_markdown_text content))).flatMap finalPassT

/-- Rejoin worker: a `false`-tagged chunk was split at a paragraph boundary,
so a single newline is re-inserted before it; a `true`-tagged chunk is a
continuation slice, concatenated with no separator. -/
def rejoinGo : List (List Char × Bool) → List Char
  | [] => []
  | (c, true) :: rest => c ++ rejoinGo rest
  | (c, false) :: rest => '\n' :: (c ++ rejoinGo rest)

/-- Reconstruction of the text from tagged chunks: concatenate, re-inserting
one newline between chunks split at paragraph boundaries and nothing between
the slices of a force-split paragraph. -/
def rejoinT : List (List Char × Bool) → List Char
  | [] => []
  | (c, _) :: rest => c ++ rejoinGo rest

/-- Outcome of one HTTP `HEAD` probe in `download_and_encode_image`
(transform_xhs.py): success, an `HTTPError` with a status code raised by
`raise_for_status`, or any other exception. -/
inductive HeadOutcome where
  | ok
  | httpErr (status : Nat)
  | exn
deriving DecidableEq

/-- The `for attempt in range(max_retries)` loop of
`download_and_encode_image`, instrumented with the number of HEAD requests
performed.  `head` is the oracle giving the outcome of the probe at each
attempt index; the `[]` case is the for-else clause (`return url`). -/
def dlGo (head : Nat → HeadOutcome) (url : List Char) (maxR : Nat) : List Nat → List Char × Nat
  | [] => (url, 0)
  | a :: rest =>
    match head a with
    | HeadOutcome.ok => (url, 1)
    | HeadOutcome.httpErr s =>
      if s == 403 && decide (a < maxR - 1) then
        let r := dlGo head url maxR rest
        (r.1, r.2 + 1)
      else (url, 1)
    | HeadOutcome.exn => (url, 1)

/-- Model of `download_and_encode_image` (transform_xhs.py) with `max_retries = 1` as
in the source.  Returns the URL the function returns together with the number
of HEAD requests performed. -/
def download_and_encode_image (head : Nat → HeadOutcome) (url : List Char) : List Char × Nat :=
  dlGo head url 1 (List.range 1)

/-- Model of `upload_to_cloudinary` (transform_xhs.py).  The Cloudinary collaborator
is the oracle `upload`: `some hosted` models a successful upload returning
`secure_url`, `none` models any exception, in which case the function falls
back to the input URL. -/
def upload_to_cloudinary (upload : List Char → Option (List Char)) (url : List Char) : List Char :=
  match upload url with
  | some hosted => hosted
  | none => url

/-- The HTTP→HTTPS scheme normalization in `process_xhs_image_url`. -/
def httpsNorm (url : List Char) : List Char :=
  if pyStartsWith ("http://".toList) url then ("https://".toList) ++ url.drop 7 else url

/-- Model of `process_xhs_image_url` (transform_xhs.py): empty input yields
`("", [])`; otherwise the scheme is normalized to HTTPS, the URL is uploaded
to Cloudinary (falling back to the normalized URL on failure), and the backup
list is always empty. -/
def process_xhs_image_url (upload : List Char → Option (List Char)) (url : List Char) :
    List Char × List (List Char) :=
  if url.isEmpty then ([], [])
  else (upload_to_cloudinary upload (httpsNorm url), [])

/-- Model of `PLATFORM_TYPES` (content_extractor.py), an insertion-ordered table of
platform-identifying substrings. -/
def PLATFORM_TYPES : List (List Char × List Char) :=
  [("xhslink".toList, "小红书".toList),
   ("xiaohongshu".toList, "小红书".toList),
   ("xhs".toList, "小红书".toList),
   ("weibo".toList, "微博".toList),
   ("okjike".toList, "即刻".toList),
   ("instagram".toList, "Instagram".toList),
   ("http".toList, "网页".toList),
   ("https".toList, "网页".toList)]

/-- Attempt to match the regex `https?://[^\s]+` at the start of `s`: the
optional `s` is decided by the input, then the greedy `[^\s]+` takes the
maximal run of non-whitespace characters, which must be nonempty. -/
def matchUrlAt (s : List Char) : Option (List Char) :=
  if pyStartsWith ("https://".toList) s then
    let run := (s.drop 8).takeWhile (fun c => !pyIsSpace c)
    if run.isEmpty then none else some (("https://".toList) ++ run)
  else if pyStartsWith ("http://".toList) s then
    let run := (s.drop 7).takeWhile (fun c => !pyIsSpace c)
    if run.isEmpty then none else some (("http://".toList) ++ run)
  else none

/-- Model of `re.search(r"(https?://[^\s]+)", content)`: the leftmost match. -/
def findUrl : List Char → Option (List Char)
  | [] => none
  | s@(_ :: rest) =>
    match matchUrlAt s with
    | some u => some u
    | none => findUrl rest

/-- Result of `detect_content_type` (content_extractor.py): either the
`type="text"` dictionary (platform always `None`, full original content) or
the `type="url"` dictionary (platform, matched url, original content). -/
inductive DetectResult where
  | text (platform : Option (List Char)) (content : List Char)
  | url (platform : Option (List Char)) (url : List Char) (original : List Char)
deriving DecidableEq

/-- Model of `detect_content_type` (content_extractor.py): search for the first URL;
if none, return the text classification; otherwise scan `PLATFORM_TYPES` in
order for the first key contained in the lowercased URL, falling back to
`"网页"` for scheme-prefixed URLs that match no table entry. -/
def detect_content_type (content : List Char) : DetectResult :=
  match findUrl content with
  | none => DetectResult.text none content
  | some u =>
    let fromTable := PLATFORM_TYPES.find? (fun kv => pyIn kv.1 (pyLower u))
    let platform :=
      match fromTable with
      | some kv => some kv.2
      | none =>
        if pyStartsWith ("http://".toList) u || pyStartsWith ("https://".toList) u then
          some ("网页".toList)
        else none
    DetectResult.url platform u content

/-- Spec-side description of a URL token: at this position the text carries
an `http`/`https` scheme followed by a nonempty maximal run of
non-whitespace characters, and `u` is that token. -/
def urlTokenAt (s u : List Char) : Prop :=
  (pyStartsWith ("https://".toList) s = true ∧
    (s.drop 8).takeWhile (fun c => !pyIsSpace c) ≠ [] ∧
    u = ("https://".toList) ++ (s.drop 8).takeWhile (fun c => !pyIsSpace c)) ∨
  (pyStartsWith ("http://".toList) s = true ∧
    (s.drop 7).takeWhile (fun c => !pyIsSpace c) ≠ [] ∧
    u = ("http://".toList) ++ (s.drop 7).takeWhile (fun c => !pyIsSpace c))

/-- The `url` field of a detection result, when present. -/
def urlOf : DetectResult → Option (List Char)
  | DetectResult.text _ _ => none
  | DetectResult.url _ u _ => some u
/-- One item of a Notion `rich_text` array: its text content, an optional
link URL, and the bold flag used by the warning block. -/
structure RichItem where
  content : List Char
  link : Option (List Char)
  bold : Bool
deriving DecidableEq

/-- A Notion content block as assembled by `create_notion_page`
(notion_handler.py): headings, dividers, paragraphs of rich text, and
external-URL / file-URL image blocks. -/
inductive Block where
  | heading2 (t : List Char)
  | heading3 (t : List Char)
  | divider
  | para (items : List RichItem)
  | imageExternal (u : List Char)
  | imageFile (u : List Char)
deriving DecidableEq

/-- The paragraph emitted when an image and all its backups fail to embed:
`图片链接(无法嵌入): ` followed by the processed URL as a link. -/
def unembeddablePara (purl : List Char) : Block :=
  Block.para [⟨"图片链接(无法嵌入): ".toList, none, false⟩, ⟨purl, some purl, false⟩]

/-- The bold red warning paragraph emitted when no image embedded at all. -/
def warningPara : Block :=
  Block.para [⟨"无法直接嵌入图片，请访问原始链接查看图片内容。".toList, none, true⟩]

/-- The `for backup_url in backup_urls` rescue loop: the first backup whose
image block embeds successfully (failed `children.append` calls add
nothing). -/
def tryBackups (embedOk : List Char → Bool) : List (List Char) → Option (List Char)
  | [] => none
  | b :: rest => if embedOk b then some b else tryBackups embedOk rest

/-- One iteration of `for img_url in sanitized_data["images"]`.  `embedOk`
is the oracle deciding whether appending an image block with a given URL
succeeds (the operation the source wraps in try/except); `procUrl` is the
URL-source-specific processing step (`process_instagram_url`,
`process_xhs_image_url`, or the identity), returning the processed URL and
that image's backup URLs.  Result: appended blocks, the
`image_success_count` increment, and the backup URLs collected into
`all_backup_urls` (the source extends that list before attempting the
embed). -/
def perImage (embedOk : List Char → Bool) (procUrl : List Char → List Char × List (List Char))
    (img : List Char) : List Block × Nat × List (List Char) :=
  if img.isEmpty then ([], 0, [])
  else
    let purl := (procUrl img).1
    let backups := (procUrl img).2
    if embedOk purl then
      ([Block.imageExternal purl,
        Block.para [⟨"图片链接: ".toList ++ purl, some purl, false⟩]], 1, backups)
    else
      match tryBackups embedOk backups with
      | some b =>
        ([Block.imageFile b,
          Block.para [⟨"备用图片链接: ".toList ++ b, none, false⟩]], 1, backups)
      | none => ([unembeddablePara purl], 0, backups)

/-- The whole image loop: blocks in appearance order, the final
`image_success_count`, and `all_backup_urls` (seeded from
`data["backup_images"]`). -/
def imagesFold (embedOk : List Char → Bool) (procUrl : List Char → List Char × List (List Char))
    (backupImages : List (List Char)) (imgs : List (List Char)) :
    List Block × Nat × List (List Char) :=
  imgs.foldl
    (fun acc img =>
      let r := perImage embedOk procUrl img
      (acc.1 ++ r.1, acc.2.1 + r.2.1, acc.2.2 ++ r.2.2))
    ([], 0, backupImages)

/-- The `原始图片 {i+1}: ` listing of raw image URLs (empty URLs skipped). -/
def rawListing (raws : List (List Char)) : List Block :=
  raws.enum.flatMap
    (fun ir =>
      if ir.2.isEmpty then []
      else [Block.para [⟨"原始图片 ".toList ++ (Nat.repr (ir.1 + 1)).toList ++ ": ".toList, none, false⟩,
                        ⟨ir.2, some ir.2, false⟩]])

/-- The `备用链接 {i+1}: ` listing of collected backup URLs. -/
def backupListing (bs : List (List Char)) : List Block :=
  bs.enum.flatMap
    (fun ib =>
      if ib.2.isEmpty then []
      else [Block.para [⟨"备用链接 ".toList ++ (Nat.repr (ib.1 + 1)).toList ++ ": ".toList, none, false⟩,
                        ⟨ib.2, some ib.2, false⟩]])

/-- The image section of `create_notion_page` (notion_handler.py, the
`if "images" in sanitized_data ...` branch): divider, section heading, the
per-image blocks, and — when `image_success_count == 0` — the bold warning,
the raw-image listing (when `raw_images` is present and nonempty) and the
backup-URL listing (when any backup URLs were collected). -/
def composeImageSection (embedOk : List Char → Bool)
    (procUrl : List Char → List Char × List (List Char))
    (images backupImages rawImages : List (List Char)) : List Block :=
  if images.isEmpty then []
  else
    let r := imagesFold embedOk procUrl backupImages images
    let base := [Block.divider, Block.heading3 ("图片内容".toList)] ++ r.1
    if r.2.1 = 0 then
      base ++ [warningPara]
        ++ (if rawImages.isEmpty then [] else rawListing rawImages)
        ++ (if r.2.2.isEmpty then []
            else [Block.para [⟨"备用图片链接:".toList, none, true⟩]] ++ backupListing r.2.2)
    else base

/-- Predicate: `blk` is a plain paragraph block one of whose rich-text items carries
exactly the text `u` (how the source records an image URL in a text
block). -/
def blockMentions (blk : Block) (u : List Char) : Prop :=
  match blk with
  | Block.para items => ∃ it ∈ items, it.content = u
  | _ => False

/-- Model of `required_properties` of `verify_database_structure`
(notion_handler.py), in source order. -/
def required_properties : List (List Char × List Char) :=
  [("Name".toList, "title".toList),
   ("Title/Content".toList, "rich_text".toList),
   ("Source".toList, "select".toList),
   ("Category".toList, "select".toList),
   ("Tag".toList, "multi_select".toList),
   ("URL".toList, "url".toList)]

/-- Property lookup in the retrieved database schema (a Python dict keyed by
property name, modelled as an association list with unique keys). -/
def propLookup (props : List (List Char × List Char)) (name : List Char) :
    Option (List Char × List Char) :=
  props.find? (fun p => p.1 == name)

/-- Model of `verify_database_structure` (notion_handler.py).  `database` is the
result of `get_notion_database_schema`: `none` when retrieval failed,
otherwise the property-name → property-type mapping.  Returns the success
flag and the message. -/
def verify_database_structure (database : Option (List (List Char × List Char))) :
    Bool × List Char :=
  match database with
  | none => (false, "无法获取数据库信息".toList)
  | some props =>
    let missing := (required_properties.filter
      (fun rp => (propLookup props rp.1).isNone)).map (fun rp => rp.1)
    let wrong := required_properties.filterMap
      (fun rp =>
        match propLookup props rp.1 with
        | none => none
        | some p =>
          if p.2 ≠ rp.2 then
            some (rp.1 ++ " (应为 ".toList ++ rp.2 ++ ", 实际为 ".toList ++ p.2 ++ ")".toList)
          else none)
    if missing.isEmpty && wrong.isEmpty then
      (true, "数据库结构验证通过".toList)
    else
      let msg := (if missing.isEmpty then []
                  else "缺少属性: ".toList ++ pyJoin (", ".toList) missing ++ ". ".toList)
              ++ (if wrong.isEmpty then []
                  else "属性类型错误: ".toList ++ pyJoin (", ".toList) wrong ++ ".".toList)
      (false, pyStrip msg)

/-- Result of the `/process` endpoint handler, instrumented with whether
`create_notion_page` was invoked. -/
structure ProcResult where
  success : Bool
  message : List Char
  createCalled : Bool
deriving DecidableEq

/-- Model of `process_content` (api.py): verify the database structure first and
return its failure without composing; otherwise detect the content type,
extract (outcome abstracted by the `extractSuccess` oracle since extraction
is network-bound), and only then call `create_notion_page` (outcome
abstracted by `createOk`). -/
def process_content (database : Option (List (List Char × List Char)))
    (extractSuccess createOk : Bool) (content : List Char) : ProcResult :=
  let v := verify_database_structure database
  if !v.1 then
    ⟨false, "Notion数据库结构不符合要求: ".toList ++ v.2, false⟩
  else
    let _cls := detect_content_type content
    if !extractSuccess then
      ⟨false, "无法提取内容，可能是不支持的平台或链接无效".toList, false⟩
    else if !createOk then
      ⟨false, "无法创建Notion页面: 未知错误".toList, true⟩
    else
      ⟨true, "成功处理内容并同步到Notion".toList, true⟩
theorem pyStartsWith_iff (pat s : List Char) :
    pyStartsWith pat s = true ↔ ∃ t, s = pat ++ t := by
  induction pat generalizing s with
  | nil => simp [pyStartsWith]
  | cons p ps ih =>
    cases s with
    | nil =>
      simp [pyStartsWith]
    | cons c cs =>
      simp only [pyStartsWith, Bool.and_eq_true, beq_iff_eq, List.cons_append]
      constructor
      · rintro ⟨rfl, h⟩
        obtain ⟨t, rfl⟩ := (ih cs).1 h
        exact ⟨t, rfl⟩
      · rintro ⟨t, ht⟩
        injection ht with h1 h2
        exact ⟨h1.symm, (ih cs).2 ⟨t, h2⟩⟩

theorem pyIn_iff (pat s : List Char) :
    pyIn pat s = true ↔ ∃ a b, s = a ++ pat ++ b := by
  induction s with
  | nil =>
    simp only [pyIn, List.isEmpty_iff]
    constructor
    · intro h; exact ⟨[], [], by simp [h]⟩
    · rintro ⟨a, b, h⟩
      rcases List.append_eq_nil.mp (List.append_eq_nil.mp h.symm).1 with ⟨-, h2⟩
      exact h2
  | cons c cs ih =>
    simp only [pyIn, Bool.or_eq_true, pyStartsWith_iff, ih]
    constructor
    · rintro (⟨t, ht⟩ | ⟨a, b, rfl⟩)
      · exact ⟨[], t, by simp [ht]⟩
      · exact ⟨c :: a, b, rfl⟩
    · rintro ⟨a, b, h⟩
      cases a with
      | nil => exact Or.inl ⟨b, by simpa using h⟩
      | cons a0 as =>
        rw [List.cons_append, List.cons_append] at h
        injection h with h1 h2
        exact Or.inr ⟨as, b, h2⟩

theorem pyIn_append_right (pat a b : List Char) (h : pyIn pat b = true) :
    pyIn pat (a ++ b) = true := by
  obtain ⟨x, y, rfl⟩ := (pyIn_iff pat b).1 h
  exact (pyIn_iff pat _).2 ⟨a ++ x, y, by simp⟩

theorem pyIn_append_left (pat a b : List Char) (h : pyIn pat a = true) :
    pyIn pat (a ++ b) = true := by
  obtain ⟨x, y, rfl⟩ := (pyIn_iff pat a).1 h
  exact (pyIn_iff pat _).2 ⟨x, y ++ b, by simp⟩

theorem pyIn_refl (pat : List Char) : pyIn pat pat = true :=
  (pyIn_iff pat pat).2 ⟨[], [], by simp⟩

theorem pyIn_pyJoin (sep : List Char) (l : List (List Char)) (x : List Char)
    (hx : x ∈ l) : pyIn x (pyJoin sep l) = true := by
  induction l with
  | nil => cases hx
  | cons a t ih =>
    rcases List.mem_cons.mp hx with rfl | hx2
    · cases t with
      | nil => exact pyIn_refl x
      | cons b t2 =>
        show pyIn x (x ++ sep ++ pyJoin sep (b :: t2)) = true
        rw [List.append_assoc]
        exact pyIn_append_left _ _ _ (pyIn_refl x)
    · cases t with
      | nil => cases hx2
      | cons b t2 =>
        show pyIn x (a ++ sep ++ pyJoin sep (b :: t2)) = true
        rw [List.append_assoc]
        exact pyIn_append_right _ _ _ (pyIn_append_right _ _ _ (ih hx2))

theorem pyIn_nil (s : List Char) : pyIn [] s = true := by
  cases s <;> simp [pyIn, pyStartsWith, List.isEmpty]

theorem pyIn_dropWhile (pat s : List Char)
    (hall : ∀ x ∈ pat, pyIsSpace x = false) (h : pyIn pat s = true) :
    pyIn pat (s.dropWhile pyIsSpace) = true := by
  induction s with
  | nil => simpa using h
  | cons c cs ih =>
    by_cases hc : pyIsSpace c
    · rw [List.dropWhile_cons_of_pos hc]
      apply ih
      simp only [pyIn, Bool.or_eq_true] at h
      rcases h with hs | hi
      · cases pat with
        | nil => exact pyIn_nil cs
        | cons p0 ps =>
          exfalso
          obtain ⟨t, ht⟩ := (pyStartsWith_iff _ _).1 hs
          injection ht with h1 _
          have hws := hall p0 (List.mem_cons_self _ _)
          rw [h1] at hc
          simp [hc] at hws
      · exact hi
    · rwa [List.dropWhile_cons_of_neg hc]

theorem pyIn_rev (pat s : List Char) (h : pyIn pat s = true) :
    pyIn pat.reverse s.reverse = true := by
  obtain ⟨a, b, rfl⟩ := (pyIn_iff pat s).1 h
  exact (pyIn_iff _ _).2 ⟨b.reverse, a.reverse, by simp⟩

theorem pyIn_pyStrip (pat s : List Char)
    (hall : ∀ x ∈ pat, pyIsSpace x = false) (h : pyIn pat s = true) :
    pyIn pat (pyStrip s) = true := by
  unfold pyStrip
  have h1 := pyIn_dropWhile pat s hall h
  have h2 := pyIn_rev _ _ h1
  have h3 := pyIn_dropWhile pat.reverse _ (by simpa using hall) h2
  have h4 := pyIn_rev _ _ h3
  simpa using h4

theorem splitNl_ne_nil (s : List Char) : splitNl s ≠ [] := by
  induction s with
  | nil => simp [splitNl]
  | cons c rest ih =>
    simp only [splitNl]
    by_cases hc : c = '\n'
    · simp [hc]
    · rcases hr : splitNl rest with _ | ⟨p, ps⟩
      · exact absurd hr ih
      · simp [hc, hr]

theorem pyJoin_splitNl (s : List Char) : pyJoin ['\n'] (splitNl s) = s := by
  induction s with
  | nil => rfl
  | cons c rest ih =>
    simp only [splitNl]
    rcases hr : splitNl rest with _ | ⟨p, ps⟩
    · exact absurd hr (splitNl_ne_nil rest)
    · rw [hr] at ih
      by_cases hc : c = '\n'
      · subst hc
        simp only [if_pos rfl]
        show pyJoin ['\n'] ([] :: p :: ps) = '\n' :: rest
        show [] ++ ['\n'] ++ pyJoin ['\n'] (p :: ps) = '\n' :: rest
        simp [ih]
      · simp only [if_neg hc]
        cases ps with
        | nil =>
          show c :: p = c :: rest
          simpa using ih
        | cons q qs =>
          show (c :: p) ++ ['\n'] ++ pyJoin ['\n'] (q :: qs) = c :: rest
          have : p ++ ['\n'] ++ pyJoin ['\n'] (q :: qs) = rest := ih
          simpa using this

theorem pyJoin_append_single (sep : List Char) (l : List (List Char)) (x : List Char)
    (h : l ≠ []) : pyJoin sep (l ++ [x]) = pyJoin sep l ++ sep ++ x := by
  induction l with
  | nil => exact absurd rfl h
  | cons a t ih =>
    cases t with
    | nil => rfl
    | cons b t2 =>
      show a ++ sep ++ pyJoin sep ((b :: t2) ++ [x]) = (a ++ sep ++ pyJoin sep (b :: t2)) ++ sep ++ x
      rw [ih (by simp)]
      simp [List.append_assoc]

theorem chunksOfGo_mem_length (m : Nat) (hm : 1 ≤ m) :
    ∀ (f : Nat) (p : List Char), p.length ≤ f → ∀ c ∈ chunksOfGo m f p, c.length ≤ m := by
  intro f
  induction f with
  | zero =>
    intro p hp c hc
    cases p with
    | nil => cases hc
    | cons a t => simp at hp
  | succ f ih =>
    intro p hp c hc
    cases p with
    | nil => cases hc
    | cons a t =>
      rcases List.mem_cons.mp hc with rfl | hc2
      · simp
      · exact ih _ (by simp at hp ⊢; omega) c hc2

theorem chunksOfGo_join (m : Nat) (hm : 1 ≤ m) :
    ∀ (f : Nat) (p : List Char), p.length ≤ f → (chunksOfGo m f p).flatten = p := by
  intro f
  induction f with
  | zero =>
    intro p hp
    cases p with
    | nil => rfl
    | cons a t => simp at hp
  | succ f ih =>
    intro p hp
    cases p with
    | nil => rfl
    | cons a t =>
      show ((a :: t).take m :: chunksOfGo m f ((a :: t).drop m)).flatten = a :: t
      rw [List.flatten_cons, ih _ (by simp at hp ⊢; omega)]
      exact List.take_append_drop m (a :: t)

theorem chunksOf_mem_length (m : Nat) (hm : 1 ≤ m) (p c : List Char)
    (hc : c ∈ chunksOf m p) : c.length ≤ m :=
  chunksOfGo_mem_length m hm p.length p (Nat.le_refl _) c hc

theorem chunksOf_join (m : Nat) (hm : 1 ≤ m) (p : List Char) :
    (chunksOf m p).flatten = p :=
  chunksOfGo_join m hm p.length p (Nat.le_refl _)

theorem chunksOf_ne_nil (m : Nat) (p : List Char) (hp : p ≠ []) :
    chunksOf m p ≠ [] := by
  cases p with
  | nil => exact absurd rfl hp
  | cons a t => simp [chunksOf, chunksOfGo]

/-- C1: every block returned by `split_content` with the default soft limit
1900 — including force-split slices and validation-pass re-slices — has
length at most 2000. -/
theorem C1_chunker_length_invariant (content : List Char) (c : List Char)
    (hc : c ∈ split_content content 1900) : c.length ≤ 2000 := by
  unfold split_content at hc
  obtain ⟨d, _, hc2⟩ := List.mem_flatMap.mp hc
  unfold finalPass at hc2
  by_cases h : d.length > 2000
  · rw [if_pos h] at hc2
    exact Nat.le_trans (chunksOf_mem_length 1900 (by omega) d c hc2) (by omega)
  · rw [if_neg h] at hc2
    rcases List.mem_singleton.mp hc2 with rfl
    omega

/-- Witness for C1 at a concrete input. -/
theorem C1_chunker_length_invariant_witness : (['h', 'i'] : List Char).length ≤ 2000 :=
  C1_chunker_length_invariant ("hi".toList) ['h', 'i'] (by decide)
theorem rejoinGo_append (l1 l2 : List (List Char × Bool)) :
    rejoinGo (l1 ++ l2) = rejoinGo l1 ++ rejoinGo l2 := by
  induction l1 with
  | nil => simp [rejoinGo]
  | cons cb t ih =>
    obtain ⟨c, b⟩ := cb
    cases b <;> simp [rejoinGo, ih]

theorem rejoinT_append (l1 l2 : List (List Char × Bool)) (h : l1 ≠ []) :
    rejoinT (l1 ++ l2) = rejoinT l1 ++ rejoinGo l2 := by
  cases l1 with
  | nil => exact absurd rfl h
  | cons cb t =>
    obtain ⟨c, b⟩ := cb
    simp [rejoinT, rejoinGo_append]

theorem rejoinGo_single (c : List Char) (b : Bool) :
    rejoinGo [(c, b)] = if b then c else '\n' :: c := by
  cases b <;> simp [rejoinGo]

theorem rejoinGo_map_true (cs : List (List Char)) :
    rejoinGo (cs.map (fun d => (d, true))) = cs.flatten := by
  induction cs with
  | nil => simp [rejoinGo]
  | cons c t ih => simp [rejoinGo, ih]

theorem rejoinT_sliceTags (m : Nat) (hm : 1 ≤ m) (p : List Char) (hp : p ≠ []) :
    rejoinT (sliceTags m p) = p := by
  unfold sliceTags
  rcases hcs : chunksOf m p with _ | ⟨c, cs⟩
  · exact absurd hcs (chunksOf_ne_nil m p hp)
  · have hj := chunksOf_join m hm p
    rw [hcs] at hj
    simp only [rejoinT, rejoinGo_map_true]
    simpa using hj

theorem rejoinGo_sliceTags (m : Nat) (hm : 1 ≤ m) (p : List Char) (hp : p ≠ []) :
    rejoinGo (sliceTags m p) = '\n' :: p := by
  unfold sliceTags
  rcases hcs : chunksOf m p with _ | ⟨c, cs⟩
  · exact absurd hcs (chunksOf_ne_nil m p hp)
  · have hj := chunksOf_join m hm p
    rw [hcs] at hj
    simp only [rejoinGo, rejoinGo_map_true]
    simpa using hj

theorem rejoinT_extend_last (l : List (List Char × Bool)) (x y : List Char) (b : Bool) :
    rejoinT (l ++ [(x ++ y, b)]) = rejoinT (l ++ [(x, b)]) ++ y := by
  cases l with
  | nil => cases b <;> simp [rejoinT, rejoinGo]
  | cons cb t =>
    obtain ⟨c, b0⟩ := cb
    rw [List.cons_append, List.cons_append]
    simp only [rejoinT, rejoinGo_append]
    rw [rejoinGo_single, rejoinGo_single]
    cases b <;> simp

theorem flushT_eq_nil_iff (s : TagSt) :
    flushT s = [] ↔ s.chunks = [] ∧ s.cur = [] := by
  unfold flushT
  by_cases h : s.cur.isEmpty
  · simp [h, List.isEmpty_iff.mp h]
  · have hc : s.cur ≠ [] := fun h2 => h (List.isEmpty_iff.mpr h2)
    simp [h, hc]

theorem sliceTags_ne_nil (m : Nat) (p : List Char) (hp : p ≠ []) :
    sliceTags m p ≠ [] := by
  unfold sliceTags
  rcases hcs : chunksOf m p with _ | ⟨c, cs⟩
  · exact absurd hcs (chunksOf_ne_nil m p hp)
  · simp

theorem stepParaT_good (m : Nat) (s : TagSt) (p : List Char) :
    (stepParaT m s p).cur = [] → (stepParaT m s p).curLen = 0 := by
  unfold stepParaT
  by_cases h1 : p.length > m
  · simp [h1]
  · by_cases h2 : s.curLen + p.length + 1 > m <;> simp [h1, h2]

theorem stepParaT_not_E (m : Nat) (hm : 1 ≤ m) (s : TagSt) (p : List Char) :
    ¬((stepParaT m s p).chunks = [] ∧ (stepParaT m s p).cur = []) := by
  unfold stepParaT
  by_cases h1 : p.length > m
  · have hp : p ≠ [] := by
      intro h; rw [h] at h1; simp at h1
    simp only [h1, if_pos]
    rintro ⟨hch, -⟩
    exact sliceTags_ne_nil m p hp (List.append_eq_nil.mp hch).2
  · by_cases h2 : s.curLen + p.length + 1 > m <;> simp [h1, h2]

/-- The per-step reconstruction equation of the packing loop: provided the
paragraph length is not exactly the soft limit, each step appends exactly
that paragraph to the reconstruction, separated by a newline unless the
state is still completely empty. -/
theorem rejoinT_flushT_step (m : Nat) (hm : 1 ≤ m) (s : TagSt) (p : List Char)
    (hg : s.cur = [] → s.curLen = 0) (hp : p.length ≠ m) :
    rejoinT (flushT (stepParaT m s p)) =
      rejoinT (flushT s) ++
        (if s.chunks = [] ∧ s.cur = [] then [] else ['\n']) ++ p := by
  by_cases h1 : p.length > m
  · have hpne : p ≠ [] := by
      intro h; rw [h] at h1; simp at h1
    have hstep : stepParaT m s p =
        ⟨flushT s ++ sliceTags m p, [], 0⟩ := by
      unfold stepParaT flushT
      simp [h1]
    rw [hstep]
    show rejoinT (flushT ⟨flushT s ++ sliceTags m p, [], 0⟩) = _
    have : flushT ⟨flushT s ++ sliceTags m p, [], 0⟩ = flushT s ++ sliceTags m p := by
      unfold flushT; simp
    rw [this]
    by_cases hE : s.chunks = [] ∧ s.cur = []
    · have hfe : flushT s = [] := (flushT_eq_nil_iff s).mpr hE
      rw [hfe, List.nil_append, rejoinT_sliceTags m hm p hpne]
      simp [hE, rejoinT]
    · have hfne : flushT s ≠ [] := fun h => hE ((flushT_eq_nil_iff s).mp h)
      rw [rejoinT_append _ _ hfne, rejoinGo_sliceTags m hm p hpne]
      simp [hE]
  · by_cases h2 : s.curLen + p.length + 1 > m
    · -- flush-and-restart branch; the accumulator cannot be empty here
      have hcur : s.cur ≠ [] := by
        intro hc
        have h0 := hg hc
        rw [h0] at h2
        omega
      have hstep : stepParaT m s p =
          ⟨s.chunks ++ [(pyJoin ['\n'] s.cur, false)], [p], p.length⟩ := by
        unfold stepParaT
        simp [h1, h2]
      rw [hstep]
      have hflush : flushT ⟨s.chunks ++ [(pyJoin ['\n'] s.cur, false)], [p], p.length⟩ =
          (s.chunks ++ [(pyJoin ['\n'] s.cur, false)]) ++ [(p, false)] := by
        unfold flushT
        simp [pyJoin]
      rw [hflush]
      have hfs : flushT s = s.chunks ++ [(pyJoin ['\n'] s.cur, false)] := by
        unfold flushT
        simp [List.isEmpty_iff, hcur]
      rw [← hfs, rejoinT_append _ _ (fun h => hcur ((flushT_eq_nil_iff s).mp h).2),
        rejoinGo_single]
      simp [hcur]
    · -- accumulate branch
      have hstep : stepParaT m s p = ⟨s.chunks, s.cur ++ [p], s.curLen + p.length + 1⟩ := by
        unfold stepParaT
        simp [h1, h2]
      rw [hstep]
      have hflush : flushT ⟨s.chunks, s.cur ++ [p], s.curLen + p.length + 1⟩ =
          s.chunks ++ [(pyJoin ['\n'] (s.cur ++ [p]), false)] := by
        unfold flushT
        simp
      rw [hflush]
      by_cases hc : s.cur = []
      · rw [hc]
        have hj : pyJoin ['\n'] ([] ++ [p]) = p := rfl
        rw [hj]
        have hfs : flushT s = s.chunks := by
          unfold flushT; simp [hc]
        by_cases hch : s.chunks = []
        · rw [hch, hfs, hch]
          simp [hch, hc, rejoinT, rejoinGo]
        · rw [rejoinT_append _ _ hch, rejoinGo_single, hfs]
          simp [hch, hc]
      · have hj : pyJoin ['\n'] (s.cur ++ [p]) = pyJoin ['\n'] s.cur ++ ['\n'] ++ p :=
          pyJoin_append_single ['\n'] s.cur p hc
        rw [hj, List.append_assoc, rejoinT_extend_last]
        have hfs : flushT s = s.chunks ++ [(pyJoin ['\n'] s.cur, false)] := by
          unfold flushT
          simp [List.isEmpty_iff, hc]
        rw [← hfs]
        simp [hc]
/-- Reconstruction across the whole fold, provided no paragraph has length
exactly the soft limit. -/
theorem rejoinT_fold (m : Nat) (hm : 1 ≤ m) :
    ∀ (ps : List (List Char)) (s : TagSt), (s.cur = [] → s.curLen = 0) →
    (∀ p ∈ ps, p.length ≠ m) →
    rejoinT (flushT (ps.foldl (stepParaT m) s)) =
      rejoinT (flushT s) ++
        (if ps = [] then []
         else (if s.chunks = [] ∧ s.cur = [] then [] else ['\n']) ++ pyJoin ['\n'] ps) := by
  intro ps
  induction ps with
  | nil => intro s hg hlen; simp
  | cons p ps' ih =>
    intro s hg hlen
    rw [List.foldl_cons]
    have hstep := rejoinT_flushT_step m hm s p hg (hlen p (List.mem_cons_self _ _))
    have hih := ih (stepParaT m s p) (stepParaT_good m s p)
      (fun q hq => hlen q (List.mem_cons_of_mem _ hq))
    rw [hih, hstep]
    have hnE : ¬((stepParaT m s p).chunks = [] ∧ (stepParaT m s p).cur = []) :=
      stepParaT_not_E m hm s p
    cases ps' with
    | nil =>
      have hj1 : pyJoin ['\n'] [p] = p := rfl
      simp [hj1]
    | cons q qs =>
      have hq : pyJoin ['\n'] (p :: q :: qs) = p ++ ['\n'] ++ pyJoin ['\n'] (q :: qs) := rfl
      simp only [hnE, if_false, if_neg (List.cons_ne_nil q qs), if_neg (List.cons_ne_nil p (q :: qs)), hq]
      simp [List.append_assoc]

theorem rejoinT_splitLoopT (m : Nat) (hm : 1 ≤ m) (ps : List (List Char))
    (hps : ps ≠ []) (hlen : ∀ p ∈ ps, p.length ≠ m) :
    rejoinT (splitLoopT m ps) = pyJoin ['\n'] ps := by
  unfold splitLoopT
  have h := rejoinT_fold m hm ps ⟨[], [], 0⟩ (fun _ => rfl) hlen
  have hinit : flushT ⟨[], [], 0⟩ = ([] : List (List Char × Bool)) := rfl
  rw [h, hinit]
  simp [hps, rejoinT]

theorem finalPassT_ne_nil (cb : List Char × Bool) : finalPassT cb ≠ [] := by
  unfold finalPassT
  by_cases h : cb.1.length > 2000
  · rw [if_pos h]
    have hne : cb.1 ≠ [] := by
      intro h0; rw [h0] at h; simp at h
    rcases hcs : chunksOf 1900 cb.1 with _ | ⟨c, cs⟩
    · exact absurd hcs (chunksOf_ne_nil 1900 cb.1 hne)
    · simp
  · rw [if_neg h]; simp

theorem rejoinT_finalPassT (cb : List Char × Bool) : rejoinT (finalPassT cb) = cb.1 := by
  obtain ⟨c, b⟩ := cb
  unfold finalPassT
  by_cases h : c.length > 2000
  · rw [if_pos h]
    have hne : c ≠ [] := by
      intro h0; rw [h0] at h; simp at h
    rcases hcs : chunksOf 1900 c with _ | ⟨d, ds⟩
    · exact absurd hcs (chunksOf_ne_nil 1900 c hne)
    · have hj := chunksOf_join 1900 (by omega) c
      rw [hcs] at hj
      simp only [rejoinT, rejoinGo_map_true]
      simpa using hj
  · rw [if_neg h]
    simp [rejoinT, rejoinGo]

theorem rejoinGo_finalPassT (cb : List Char × Bool) :
    rejoinGo (finalPassT cb) = rejoinGo [cb] := by
  obtain ⟨c, b⟩ := cb
  unfold finalPassT
  by_cases h : c.length > 2000
  · rw [if_pos h]
    have hne : c ≠ [] := by
      intro h0; rw [h0] at h; simp at h
    rcases hcs : chunksOf 1900 c with _ | ⟨d, ds⟩
    · exact absurd hcs (chunksOf_ne_nil 1900 c hne)
    · have hj := chunksOf_join 1900 (by omega) c
      rw [hcs] at hj
      cases b <;> simp [rejoinGo, rejoinGo_map_true, rejoinGo_append] <;> simpa using hj
  · simp [if_neg h, rejoinGo]

theorem rejoinGo_flatMap_finalPassT (l : List (List Char × Bool)) :
    rejoinGo (l.flatMap finalPassT) = rejoinGo l := by
  induction l with
  | nil => rfl
  | cons cb t ih =>
    rw [List.flatMap_cons, rejoinGo_append, ih, rejoinGo_finalPassT]
    show rejoinGo [cb] ++ rejoinGo t = rejoinGo (cb :: t)
    obtain ⟨c, b⟩ := cb
    cases b <;> simp [rejoinGo]

theorem rejoinT_flatMap_finalPassT (l : List (List Char × Bool)) :
    rejoinT (l.flatMap finalPassT) = rejoinT l := by
  cases l with
  | nil => rfl
  | cons cb t =>
    rw [List.flatMap_cons, rejoinT_append _ _ (finalPassT_ne_nil cb),
      rejoinT_finalPassT, rejoinGo_flatMap_finalPassT]
    obtain ⟨c, b⟩ := cb
    simp [rejoinT]
theorem sliceTags_map_fst (m : Nat) (p : List Char) :
    (sliceTags m p).map Prod.fst = chunksOf m p := by
  unfold sliceTags
  rcases chunksOf m p with _ | ⟨c, cs⟩
  · simp
  · have hcomp : (Prod.fst ∘ fun d : List Char => (d, true)) = id := rfl
    simp [List.map_map, hcomp]

theorem erase_step (m : Nat) (sT : TagSt) (s0 : SplitSt) (p : List Char)
    (h1 : sT.chunks.map Prod.fst = s0.chunks) (h2 : sT.cur = s0.cur)
    (h3 : sT.curLen = s0.curLen) :
    (stepParaT m sT p).chunks.map Prod.fst = (stepPara m s0 p).chunks ∧
    (stepParaT m sT p).cur = (stepPara m s0 p).cur ∧
    (stepParaT m sT p).curLen = (stepPara m s0 p).curLen := by
  unfold stepParaT stepPara
  rw [h2, h3]
  by_cases hb1 : p.length > m
  · rw [if_pos hb1, if_pos hb1]
    by_cases hc : s0.cur.isEmpty
    · simp [hc, sliceTags_map_fst, h1]
    · simp [hc, sliceTags_map_fst, h1]
  · rw [if_neg hb1, if_neg hb1]
    by_cases hb2 : s0.curLen + p.length + 1 > m
    · rw [if_pos hb2, if_pos hb2]
      simp [h1]
    · rw [if_neg hb2, if_neg hb2]
      simp [h1]

theorem erase_fold (m : Nat) :
    ∀ (ps : List (List Char)) (sT : TagSt) (s0 : SplitSt),
    sT.chunks.map Prod.fst = s0.chunks → sT.cur = s0.cur → sT.curLen = s0.curLen →
    (ps.foldl (stepParaT m) sT).chunks.map Prod.fst = (ps.foldl (stepPara m) s0).chunks ∧
    (ps.foldl (stepParaT m) sT).cur = (ps.foldl (stepPara m) s0).cur ∧
    (ps.foldl (stepParaT m) sT).curLen = (ps.foldl (stepPara m) s0).curLen := by
  intro ps
  induction ps with
  | nil => intro sT s0 h1 h2 h3; exact ⟨h1, h2, h3⟩
  | cons p ps' ih =>
    intro sT s0 h1 h2 h3
    obtain ⟨g1, g2, g3⟩ := erase_step m sT s0 p h1 h2 h3
    rw [List.foldl_cons, List.foldl_cons]
    exact ih _ _ g1 g2 g3

theorem splitLoopT_map_fst (m : Nat) (ps : List (List Char)) :
    (splitLoopT m ps).map Prod.fst = splitLoop m ps := by
  unfold splitLoopT splitLoop flushT
  obtain ⟨g1, g2, g3⟩ := erase_fold m ps ⟨[], [], 0⟩ ⟨[], [], 0⟩ rfl rfl rfl
  rw [g2]
  by_cases hc : (ps.foldl (stepPara m) ⟨[], [], 0⟩).cur.isEmpty <;>
    simp [hc, g1, g2]

theorem finalPassT_map_fst (cb : List Char × Bool) :
    (finalPassT cb).map Prod.fst = finalPass cb.1 := by
  obtain ⟨c, b⟩ := cb
  unfold finalPassT finalPass
  by_cases h : c.length > 2000
  · simp only [if_pos h]
    rcases chunksOf 1900 c with _ | ⟨d, ds⟩
    · simp
    · have hcomp : (Prod.fst ∘ fun e : List Char => (e, true)) = id := rfl
      simp [List.map_map, hcomp]
  · simp [if_neg h]

theorem split_content_tagged_fst (content : List Char) (m : Nat) :
    (split_content_tagged content m).map Prod.fst = split_content content m := by
  unfold split_content_tagged split_content
  rw [← splitLoopT_map_fst]
  generalize splitLoopT m (splitNl (clean_markdown_text content)) = l
  induction l with
  | nil => rfl
  | cons cb t ih =>
    rw [List.flatMap_cons, List.map_append, ih, List.map_cons, List.flatMap_cons,
      finalPassT_map_fst]

theorem fold_not_E (m : Nat) (hm : 1 ≤ m) :
    ∀ (qs : List (List Char)) (s : TagSt),
    ¬(s.chunks = [] ∧ s.cur = []) →
    ¬(((qs.foldl (stepParaT m) s)).chunks = [] ∧ ((qs.foldl (stepParaT m) s)).cur = []) := by
  intro qs
  induction qs with
  | nil => intro s h; exact h
  | cons q qs' ih =>
    intro s _
    rw [List.foldl_cons]
    exact ih _ (stepParaT_not_E m hm s q)

theorem splitLoopT_ne_nil (m : Nat) (hm : 1 ≤ m) (ps : List (List Char))
    (hps : ps ≠ []) : splitLoopT m ps ≠ [] := by
  cases ps with
  | nil => exact absurd rfl hps
  | cons q qs =>
    unfold splitLoopT
    rw [List.foldl_cons]
    have h := fold_not_E m hm qs (stepParaT m ⟨[], [], 0⟩ q) (stepParaT_not_E m hm _ q)
    intro hnil
    exact h ((flushT_eq_nil_iff _).mp hnil)

theorem split_content_tagged_ne_nil (content : List Char) :
    split_content_tagged content 1900 ≠ [] := by
  unfold split_content_tagged
  have h1 : splitLoopT 1900 (splitNl (clean_markdown_text content)) ≠ [] :=
    splitLoopT_ne_nil 1900 (by omega) _ (splitNl_ne_nil _)
  rcases hl : splitLoopT 1900 (splitNl (clean_markdown_text content)) with _ | ⟨cb, t⟩
  · exact absurd hl h1
  · rw [List.flatMap_cons]
    intro hnil
    exact finalPassT_ne_nil cb (List.append_eq_nil.mp hnil).1

/-- C2 (amended): for every non-empty input whose whitespace-normalized form
has no paragraph of length exactly 1900 (the soft limit), `split_content`
returns a non-empty block sequence, reconstructing the normalized input when
blocks are rejoined with a newline at paragraph-boundary splits and nothing
between force-split slices; the tagged instrumentation erases to
`split_content` itself. -/
theorem C2_chunker_completeness_amended (content : List Char)
    (hne : content ≠ [])
    (h1900 : ∀ p ∈ splitNl (clean_markdown_text content), p.length ≠ 1900) :
    split_content content 1900 ≠ [] ∧
    rejoinT (split_content_tagged content 1900) = clean_markdown_text content ∧
    (split_content_tagged content 1900).map Prod.fst = split_content content 1900 := by
  refine ⟨?_, ?_, split_content_tagged_fst content 1900⟩
  · rw [← split_content_tagged_fst content 1900]
    intro h
    exact split_content_tagged_ne_nil content (List.map_eq_nil_iff.mp h)
  · unfold split_content_tagged
    rw [rejoinT_flatMap_finalPassT,
      rejoinT_splitLoopT 1900 (by omega) _ (splitNl_ne_nil _) h1900,
      pyJoin_splitNl]

/-- Witness for the amended C2 at a concrete input. -/
theorem C2_chunker_completeness_amended_witness :
    split_content ("ab\ncd".toList) 1900 ≠ [] ∧
    rejoinT (split_content_tagged ("ab\ncd".toList) 1900) =
      clean_markdown_text ("ab\ncd".toList) ∧
    (split_content_tagged ("ab\ncd".toList) 1900).map Prod.fst =
      split_content ("ab\ncd".toList) 1900 :=
  C2_chunker_completeness_amended ("ab\ncd".toList) (by decide) (by decide)
theorem pyReplaceGo_no_head (p : Char) (ps rep : List Char) :
    ∀ (f : Nat) (s : List Char), (∀ x ∈ s, x ≠ p) → pyReplaceGo (p :: ps) rep f s = s := by
  intro f
  induction f with
  | zero => intro s h; cases s <;> rfl
  | succ f ih =>
    intro s h
    cases s with
    | nil => rfl
    | cons c rest =>
      have hc : c ≠ p := h c (List.mem_cons_self _ _)
      have hpc : (p == c) = false := beq_eq_false_iff_ne.mpr (fun h0 => hc h0.symm)
      have hsw : pyStartsWith (p :: ps) (c :: rest) = false := by
        simp [pyStartsWith, hpc]
      simp only [pyReplaceGo, hsw, Bool.false_eq_true, if_false]
      rw [ih rest (fun x hx => h x (List.mem_cons_of_mem _ hx))]

theorem pyReplace_no_head (s : List Char) (p : Char) (ps rep : List Char)
    (h : ∀ x ∈ s, x ≠ p) : pyReplace s (p :: ps) rep = s :=
  pyReplaceGo_no_head p ps rep s.length s h

theorem pySubGo_cons_ne (f : Nat) (c : Char) (rest : List Char) (hc : c ≠ '\n') :
    pySubGo (f + 1) (c :: rest) = c :: pySubGo f rest := by
  simp [pySubGo, hc]

theorem pySubGo_cons_nl (f : Nat) (rest : List Char)
    (h : lastNlIdx (rest.takeWhile pyIsSpace) = none) :
    pySubGo (f + 1) ('\n' :: rest) = '\n' :: pySubGo f rest := by
  simp [pySubGo, h]

theorem pySubGo_skip (a : List Char) (hny : ∀ x ∈ a, x ≠ '\n') :
    ∀ (f : Nat) (rest : List Char), pySubGo (f + a.length) (a ++ rest) = a ++ pySubGo f rest := by
  induction a with
  | nil => intro f rest; simp
  | cons c t ih =>
    intro f rest
    have hc : c ≠ '\n' := hny c (List.mem_cons_self _ _)
    have hlen : f + (c :: t).length = (f + t.length) + 1 := by
      simp [List.length_cons]; omega
    rw [hlen, List.cons_append, pySubGo_cons_ne _ _ _ hc,
      ih (fun x hx => hny x (List.mem_cons_of_mem _ hx)) f rest]
    rfl

theorem pySubNl_no_nl (s : List Char) (h : ∀ x ∈ s, x ≠ '\n') : pySubNl s = s := by
  unfold pySubNl
  have hx := pySubGo_skip s h 0 []
  have h0 : pySubGo 0 [] = [] := rfl
  rw [Nat.zero_add, h0] at hx
  simpa using hx

theorem takeWhile_head_neg (c : Char) (t : List Char) (hc : pyIsSpace c = false) :
    (c :: t).takeWhile pyIsSpace = [] := by
  simp [List.takeWhile_cons, hc]

theorem pySubNl_three (p1 p2 p3 : List Char)
    (h1 : ∀ x ∈ p1, x ≠ '\n') (h2 : ∀ x ∈ p2, x ≠ '\n') (h3 : ∀ x ∈ p3, x ≠ '\n')
    (hp2 : ∃ c t, p2 = c :: t ∧ pyIsSpace c = false)
    (hp3 : ∃ c t, p3 = c :: t ∧ pyIsSpace c = false) :
    pySubNl (p1 ++ '\n' :: (p2 ++ '\n' :: p3)) = p1 ++ '\n' :: (p2 ++ '\n' :: p3) := by
  obtain ⟨c2, t2, hp2eq, hc2⟩ := hp2
  obtain ⟨c3, t3, hp3eq, hc3⟩ := hp3
  have tw2 : (p2 ++ '\n' :: p3).takeWhile pyIsSpace = [] := by
    rw [hp2eq, List.cons_append]
    exact takeWhile_head_neg _ _ hc2
  have tw3 : p3.takeWhile pyIsSpace = [] := by
    rw [hp3eq]
    exact takeWhile_head_neg _ _ hc3
  unfold pySubNl
  have hfuel : (p1 ++ '\n' :: (p2 ++ '\n' :: p3)).length =
      (('\n' :: (p2 ++ '\n' :: p3)).length) + p1.length := by
    simp; omega
  rw [hfuel, pySubGo_skip p1 h1]
  have step2 : pySubGo (('\n' :: (p2 ++ '\n' :: p3)).length) ('\n' :: (p2 ++ '\n' :: p3)) =
      '\n' :: pySubGo ((p2 ++ '\n' :: p3).length) (p2 ++ '\n' :: p3) := by
    rw [show ('\n' :: (p2 ++ '\n' :: p3)).length = (p2 ++ '\n' :: p3).length + 1 from by simp]
    exact pySubGo_cons_nl _ _ (by rw [tw2]; rfl)
  rw [step2]
  have hfuel2 : (p2 ++ '\n' :: p3).length = (('\n' :: p3).length) + p2.length := by
    simp; omega
  rw [hfuel2, pySubGo_skip p2 h2]
  have step3 : pySubGo (('\n' :: p3).length) ('\n' :: p3) =
      '\n' :: pySubGo (p3.length) p3 := by
    rw [show ('\n' :: p3).length = p3.length + 1 from by simp]
    exact pySubGo_cons_nl _ _ (by rw [tw3]; rfl)
  rw [step3]
  have last : pySubGo (p3.length) p3 = p3 := by
    have := pySubNl_no_nl p3 h3
    unfold pySubNl at this
    exact this
  rw [last]

theorem pyStrip_id (c d : Char) (mid : List Char)
    (hc : pyIsSpace c = false) (hd : pyIsSpace d = false) :
    pyStrip (c :: (mid ++ [d])) = c :: (mid ++ [d]) := by
  unfold pyStrip
  rw [List.dropWhile_cons_of_neg (by simp [hc])]
  have hrev : (c :: (mid ++ [d])).reverse = d :: (mid.reverse ++ [c]) := by simp
  rw [hrev, List.dropWhile_cons_of_neg (by simp [hd]), ← hrev, List.reverse_reverse]

/-- Identity lemma: `clean_markdown_text` is the identity on text free of `<` and backslash,
already a fixpoint of the blank-line regex, with non-whitespace first and
last characters. -/
theorem clean_markdown_text_id (s : List Char)
    (hlt : ∀ x ∈ s, x ≠ '<') (hbs : ∀ x ∈ s, x ≠ chBackslash)
    (hsub : pySubNl s = s)
    (c d : Char) (mid : List Char) (hshape : s = c :: (mid ++ [d]))
    (hc : pyIsSpace c = false) (hd : pyIsSpace d = false) :
    clean_markdown_text s = s := by
  have e1 : pyReplace s ("<br>".toList) ['\n'] = s := by
    rw [show ("<br>".toList) = '<' :: "br>".toList from rfl]
    exact pyReplace_no_head s '<' _ _ hlt
  have e2 : pyReplace s ("<br/>".toList) ['\n'] = s := by
    rw [show ("<br/>".toList) = '<' :: "br/>".toList from rfl]
    exact pyReplace_no_head s '<' _ _ hlt
  have e3 : pyReplace s ("<br />".toList) ['\n'] = s := by
    rw [show ("<br />".toList) = '<' :: "br />".toList from rfl]
    exact pyReplace_no_head s '<' _ _ hlt
  have e4 : pyReplace s [chBackslash, chQuote] [chQuote] = s :=
    pyReplace_no_head s chBackslash _ _ hbs
  have e5 : pyReplace s [chBackslash, chDQuote] [chDQuote] = s :=
    pyReplace_no_head s chBackslash _ _ hbs
  have e6 : pyReplace s [chBackslash, 'n'] ['\n'] = s :=
    pyReplace_no_head s chBackslash _ _ hbs
  unfold clean_markdown_text
  show pyStrip (pySubNl (pyReplace (pyReplace (pyReplace (pyReplace (pyReplace
    (pyReplace s ("<br>".toList) ['\n']) ("<br/>".toList) ['\n'])
    ("<br />".toList) ['\n']) [chBackslash, chQuote] [chQuote])
    [chBackslash, chDQuote] [chDQuote]) [chBackslash, 'n'] ['\n'])) = s
  rw [e1, e2, e3, e4, e5, e6, hsub, hshape]
  exact pyStrip_id c d mid hc hd

theorem splitNl_no_nl (p : List Char) (h : ∀ x ∈ p, x ≠ '\n') : splitNl p = [p] := by
  induction p with
  | nil => rfl
  | cons c t ih =>
    have hc : c ≠ '\n' := h c (List.mem_cons_self _ _)
    have ht := ih (fun x hx => h x (List.mem_cons_of_mem _ hx))
    simp only [splitNl, if_neg hc, ht]

theorem splitNl_para (p rest : List Char) (h : ∀ x ∈ p, x ≠ '\n') :
    splitNl (p ++ '\n' :: rest) = p :: splitNl rest := by
  induction p with
  | nil => simp [splitNl]
  | cons c t ih =>
    have hc : c ≠ '\n' := h c (List.mem_cons_self _ _)
    have ht := ih (fun x hx => h x (List.mem_cons_of_mem _ hx))
    simp only [List.cons_append, splitNl, if_neg hc]
    rw [show (t.append ('\n' :: rest)) = t ++ '\n' :: rest from rfl, ht]
theorem replicate1900_shape :
    List.replicate 1900 'A' = 'A' :: (List.replicate 1898 'A' ++ ['A']) := by
  rw [show (1900 : Nat) = 1899 + 1 from rfl, List.replicate_succ,
    show (1899 : Nat) = 1898 + 1 from rfl, List.replicate_succ']

theorem clean_replicate1900 :
    clean_markdown_text (List.replicate 1900 'A') = List.replicate 1900 'A' := by
  have hmem : ∀ x ∈ List.replicate 1900 'A', x = 'A' := fun x hx => List.eq_of_mem_replicate hx
  exact clean_markdown_text_id _
    (fun x hx => by rw [hmem x hx]; decide)
    (fun x hx => by rw [hmem x hx]; decide)
    (pySubNl_no_nl _ (fun x hx => by rw [hmem x hx]; decide))
    'A' 'A' (List.replicate 1898 'A') replicate1900_shape (by decide) (by decide)

theorem split_content_tagged_replicate1900 :
    split_content_tagged (List.replicate 1900 'A') 1900 =
      [([], false), (List.replicate 1900 'A', false)] := by
  have hsplit : splitNl (List.replicate 1900 'A') = [List.replicate 1900 'A'] :=
    splitNl_no_nl _ (fun x hx => by rw [List.eq_of_mem_replicate hx]; decide)
  have hlen : (List.replicate 1900 'A').length = 1900 := List.length_replicate _ _
  have hstep : stepParaT 1900 ⟨[], [], 0⟩ (List.replicate 1900 'A') =
      ⟨[([], false)], [List.replicate 1900 'A'], 1900⟩ := by
    unfold stepParaT
    rw [if_neg (by rw [hlen]; omega),
      if_pos (by rw [hlen]; show 0 + 1900 + 1 > 1900; omega)]
    rw [hlen]
    rfl
  have hloop : splitLoopT 1900 [List.replicate 1900 'A'] =
      [([], false), (List.replicate 1900 'A', false)] := by
    unfold splitLoopT
    rw [List.foldl_cons, List.foldl_nil, hstep]
    rfl
  unfold split_content_tagged
  rw [clean_replicate1900, hsplit, hloop]
  have f1 : finalPassT (([] : List Char), false) = [(([] : List Char), false)] := rfl
  have f2 : finalPassT ((List.replicate 1900 'A'), false) =
      [((List.replicate 1900 'A'), false)] := by
    unfold finalPassT
    rw [if_neg (by show ¬((List.replicate 1900 'A').length > 2000); rw [hlen]; omega)]
  rw [List.flatMap_cons, List.flatMap_cons, List.flatMap_nil, f1, f2]
  rfl

/-- C2 counterexample: for the single paragraph of exactly 1900 characters
(no markup), the chunker emits a spurious empty leading block, so the
newline-rejoined blocks are a newline followed by the normalized input — not
the normalized input itself. -/
theorem C2_chunker_completeness_counterexample :
    List.replicate 1900 'A' ≠ [] ∧
    ¬(rejoinT (split_content_tagged (List.replicate 1900 'A') 1900) =
        clean_markdown_text (List.replicate 1900 'A')) := by
  constructor
  · intro h
    have hl0 := congrArg List.length h
    rw [List.length_replicate] at hl0
    exact absurd hl0 (by decide)
  · rw [split_content_tagged_replicate1900, clean_replicate1900]
    have hrej : rejoinT [(([] : List Char), false), (List.replicate 1900 'A', false)] =
        '\n' :: List.replicate 1900 'A' := by
      show [] ++ rejoinGo [(List.replicate 1900 'A', false)] = '\n' :: List.replicate 1900 'A'
      rw [rejoinGo_single, if_neg (by decide), List.nil_append]
    rw [hrej]
    intro heq
    have hl := congrArg List.length heq
    rw [List.length_cons] at hl
    omega

/-- C3: on an input of exactly three paragraphs of lengths 1000, 1000 and
100 that the normalizer leaves unchanged, `split_content` with soft limit
1900 returns exactly paragraph 1 and then paragraph 2 joined to paragraph 3
by one newline. -/
theorem C3_paragraph_packing_example (content p1 p2 p3 : List Char)
    (hclean : clean_markdown_text content = content)
    (hsplit : splitNl content = [p1, p2, p3])
    (l1 : p1.length = 1000) (l2 : p2.length = 1000) (l3 : p3.length = 100) :
    split_content content 1900 = [p1, p2 ++ '\n' :: p3] := by
  unfold split_content
  rw [hclean, hsplit]
  unfold splitLoop
  rw [List.foldl_cons, List.foldl_cons, List.foldl_cons, List.foldl_nil]
  have s1 : stepPara 1900 ⟨[], [], 0⟩ p1 = ⟨[], [p1], 1001⟩ := by
    unfold stepPara
    rw [if_neg (by rw [l1]; omega),
      if_neg (by show ¬(0 + p1.length + 1 > 1900); rw [l1]; omega)]
    rw [l1]
    rfl
  have s2 : stepPara 1900 ⟨[], [p1], 1001⟩ p2 = ⟨[p1], [p2], 1000⟩ := by
    unfold stepPara
    rw [if_neg (by rw [l2]; omega),
      if_pos (by show 1001 + p2.length + 1 > 1900; rw [l2]; omega)]
    rw [l2]
    rfl
  have s3 : stepPara 1900 ⟨[p1], [p2], 1000⟩ p3 = ⟨[p1], [p2, p3], 1101⟩ := by
    unfold stepPara
    rw [if_neg (by rw [l3]; omega),
      if_neg (by show ¬(1000 + p3.length + 1 > 1900); rw [l3]; omega)]
    rw [l3]
    rfl
  rw [s1, s2, s3]
  have hflush : (if ([p2, p3] : List (List Char)).isEmpty then [p1]
      else [p1] ++ [pyJoin ['\n'] [p2, p3]]) = [p1, p2 ++ '\n' :: p3] := by
    show [p1] ++ [(p2 ++ ['\n']) ++ p3] = [p1, p2 ++ '\n' :: p3]
    rw [List.append_assoc]
    rfl
  show ((if ([p2, p3] : List (List Char)).isEmpty then [p1]
      else [p1] ++ [pyJoin ['\n'] [p2, p3]]).flatMap finalPass) = [p1, p2 ++ '\n' :: p3]
  rw [hflush]
  have f1 : finalPass p1 = [p1] := by
    unfold finalPass
    rw [if_neg (by rw [l1]; omega)]
  have f2 : finalPass (p2 ++ '\n' :: p3) = [p2 ++ '\n' :: p3] := by
    unfold finalPass
    rw [if_neg (by
      show ¬((p2 ++ '\n' :: p3).length > 2000)
      rw [List.length_append, List.length_cons, l2, l3]
      omega)]
  rw [List.flatMap_cons, List.flatMap_cons, List.flatMap_nil, f1, f2]
  rfl
theorem mem_three (P1 P2 P3 : List Char) (x : Char)
    (hx : x ∈ P1 ++ '\n' :: (P2 ++ '\n' :: P3)) :
    x ∈ P1 ∨ x ∈ P2 ∨ x ∈ P3 ∨ x = '\n' := by
  rcases List.mem_append.mp hx with h | h
  · exact Or.inl h
  · rcases List.mem_cons.mp h with h2 | h2
    · exact Or.inr (Or.inr (Or.inr h2))
    · rcases List.mem_append.mp h2 with h3 | h3
      · exact Or.inr (Or.inl h3)
      · rcases List.mem_cons.mp h3 with h4 | h4
        · exact Or.inr (Or.inr (Or.inr h4))
        · exact Or.inr (Or.inr (Or.inl h4))

theorem three_para_shape (a c : Char) (n1 n3 : Nat) (P2 : List Char) :
    List.replicate (n1 + 1) a ++ '\n' :: (P2 ++ '\n' :: List.replicate (n3 + 1) c) =
    a :: ((List.replicate n1 a ++ '\n' :: (P2 ++ '\n' :: List.replicate n3 c)) ++ [c]) := by
  rw [List.replicate_succ, List.replicate_succ']
  simp [List.append_assoc]

theorem C3w_nl1 : ∀ x ∈ List.replicate 1000 'a', x ≠ '\n' :=
  fun x hx => by rw [List.eq_of_mem_replicate hx]; decide

theorem C3w_nl2 : ∀ x ∈ List.replicate 1000 'b', x ≠ '\n' :=
  fun x hx => by rw [List.eq_of_mem_replicate hx]; decide

theorem C3w_nl3 : ∀ x ∈ List.replicate 100 'c', x ≠ '\n' :=
  fun x hx => by rw [List.eq_of_mem_replicate hx]; decide

theorem C3w_clean :
    clean_markdown_text (List.replicate 1000 'a' ++
      '\n' :: (List.replicate 1000 'b' ++ '\n' :: List.replicate 100 'c')) =
    List.replicate 1000 'a' ++
      '\n' :: (List.replicate 1000 'b' ++ '\n' :: List.replicate 100 'c') := by
  apply clean_markdown_text_id _ ?hlt ?hbs ?hsub 'a' 'c'
    (List.replicate 999 'a' ++ '\n' :: (List.replicate 1000 'b' ++ '\n' :: List.replicate 99 'c'))
    (three_para_shape 'a' 'c' 999 99 (List.replicate 1000 'b')) (by decide) (by decide)
  case hlt =>
    intro x hx
    rcases mem_three _ _ _ x hx with h | h | h | h
    · rw [List.eq_of_mem_replicate h]; decide
    · rw [List.eq_of_mem_replicate h]; decide
    · rw [List.eq_of_mem_replicate h]; decide
    · rw [h]; decide
  case hbs =>
    intro x hx
    rcases mem_three _ _ _ x hx with h | h | h | h
    · rw [List.eq_of_mem_replicate h]; decide
    · rw [List.eq_of_mem_replicate h]; decide
    · rw [List.eq_of_mem_replicate h]; decide
    · rw [h]; decide
  case hsub =>
    exact pySubNl_three _ _ _ C3w_nl1 C3w_nl2 C3w_nl3
      ⟨'b', List.replicate 999 'b', rfl, by decide⟩
      ⟨'c', List.replicate 99 'c', rfl, by decide⟩

theorem C3w_split :
    splitNl (List.replicate 1000 'a' ++
      '\n' :: (List.replicate 1000 'b' ++ '\n' :: List.replicate 100 'c')) =
    [List.replicate 1000 'a', List.replicate 1000 'b', List.replicate 100 'c'] := by
  rw [splitNl_para _ _ C3w_nl1, splitNl_para _ _ C3w_nl2, splitNl_no_nl _ C3w_nl3]

/-- Witness for C3 at the concrete three-paragraph input (1000 a's, 1000
b's, 100 c's). -/
theorem C3_paragraph_packing_example_witness :
    split_content (List.replicate 1000 'a' ++
      '\n' :: (List.replicate 1000 'b' ++ '\n' :: List.replicate 100 'c')) 1900 =
    [List.replicate 1000 'a',
     List.replicate 1000 'b' ++ '\n' :: List.replicate 100 'c'] :=
  C3_paragraph_packing_example _ _ _ _ C3w_clean C3w_split
    (List.length_replicate _ _) (List.length_replicate _ _) (List.length_replicate _ _)
/-- C4: for every non-empty raw image URL, `process_xhs_image_url` returns a
non-empty primary URL — the rehosted URL when the upload collaborator
succeeds (assumed to return non-empty hosted URLs), or the HTTPS-normalized
raw URL on any rehosting failure — with a backup list that is always the
empty list; the primary is empty only when the input was empty. -/
theorem C4_image_resolver_total_return
    (upload : List Char → Option (List Char)) (url : List Char)
    (hup : ∀ u r, upload u = some r → r ≠ []) :
    (process_xhs_image_url upload url).2 = [] ∧
    (url ≠ [] → (process_xhs_image_url upload url).1 ≠ []) ∧
    ((process_xhs_image_url upload url).1 = [] → url = []) ∧
    (upload (httpsNorm url) = none →
      url ≠ [] → (process_xhs_image_url upload url).1 = httpsNorm url) := by
  by_cases hurl : url.isEmpty
  · have hnil : url = [] := List.isEmpty_iff.mp hurl
    subst hnil
    refine ⟨rfl, ?_, ?_, ?_⟩
    · intro h; exact absurd rfl h
    · intro _; rfl
    · intro _ h; exact absurd rfl h
  · have hne : url ≠ [] := fun h => hurl (List.isEmpty_iff.mpr h)
    have hres : process_xhs_image_url upload url =
        (upload_to_cloudinary upload (httpsNorm url), []) := by
      unfold process_xhs_image_url
      rw [if_neg (by simp [hurl])]
    have hnorm : httpsNorm url ≠ [] := by
      unfold httpsNorm
      by_cases hpre : pyStartsWith ("http://".toList) url
      · rw [if_pos hpre]; simp
      · rw [if_neg hpre]; exact hne
    rw [hres]
    refine ⟨rfl, ?_, ?_, ?_⟩
    · intro _
      unfold upload_to_cloudinary
      rcases hup2 : upload (httpsNorm url) with _ | hosted
      · exact hnorm
      · exact hup _ _ hup2
    · intro h1
      exfalso
      unfold upload_to_cloudinary at h1
      rcases hup2 : upload (httpsNorm url) with _ | hosted
      · rw [hup2] at h1; exact hnorm h1
      · rw [hup2] at h1; exact hup _ _ hup2 h1
    · intro hnone _
      unfold upload_to_cloudinary
      rw [hnone]

/-- Witness for C4: failing uploader, HTTP raw URL. -/
theorem C4_image_resolver_total_return_witness :
    (process_xhs_image_url (fun _ => none) ("http://a".toList)).2 = [] ∧
    ("http://a".toList ≠ [] →
      (process_xhs_image_url (fun _ => none) ("http://a".toList)).1 ≠ []) ∧
    ((process_xhs_image_url (fun _ => none) ("http://a".toList)).1 = [] →
      "http://a".toList = []) ∧
    ((fun _ => (none : Option (List Char))) (httpsNorm ("http://a".toList)) = none →
      "http://a".toList ≠ [] →
      (process_xhs_image_url (fun _ => none) ("http://a".toList)).1 =
        httpsNorm ("http://a".toList)) :=
  C4_image_resolver_total_return (fun _ => none) ("http://a".toList)
    (fun _ r h => nomatch h)

/-- C5 counterexample: with the HEAD probe always answering 403, the
function performs exactly one HEAD request — not the two (initial try plus
one retry) the claim requires. -/
theorem C5_retry_counterexample :
    (download_and_encode_image (fun _ => HeadOutcome.httpErr 403) ("u".toList)).2 = 1 ∧
    ¬((download_and_encode_image (fun _ => HeadOutcome.httpErr 403) ("u".toList)).2 = 2) := by
  constructor
  · rfl
  · intro h
    exact absurd h (by decide)

/-- C5 (amended): `download_and_encode_image` performs exactly one HEAD
request for every probe outcome — `max_retries = 1` makes the 403 retry
branch (`attempt < max_retries - 1`) unreachable — and it always returns
the input URL; verification failure is never fatal. -/
theorem C5_verification_single_attempt (head : Nat → HeadOutcome) (url : List Char) :
    download_and_encode_image head url = (url, 1) := by
  unfold download_and_encode_image
  rw [show List.range 1 = [0] from rfl]
  show dlGo head url 1 [0] = (url, 1)
  unfold dlGo
  rcases head 0 with _ | s | _
  · rfl
  · show (if (s == 403 && decide (0 < 1 - 1)) = true then
        ((dlGo head url 1 []).1, (dlGo head url 1 []).2 + 1) else (url, 1)) = (url, 1)
    rw [if_neg (by simp)]
  · rfl
theorem find?_first {α : Type} (p : α → Bool) :
    ∀ (l : List α) (i : Nat) (x : α), l.get? i = some x → p x = true →
    ∃ i0 y, i0 ≤ i ∧ l.get? i0 = some y ∧ p y = true ∧ l.find? p = some y ∧
      (∀ j z, j < i0 → l.get? j = some z → p z = false) := by
  intro l
  induction l with
  | nil => intro i x h; simp at h
  | cons a t ih =>
    intro i x hx hpx
    by_cases hpa : p a = true
    · exact ⟨0, a, Nat.zero_le _, rfl, hpa, by simp [List.find?, hpa],
        fun j z hj _ => absurd hj (Nat.not_lt_zero _)⟩
    · have hpa' : p a = false := by
        cases hpaeq : p a
        · rfl
        · exact absurd hpaeq hpa
      cases i with
      | zero =>
        rw [List.get?_cons_zero] at hx
        injection hx with h0
        rw [← h0] at hpx
        exact absurd hpx hpa
      | succ i' =>
        rw [List.get?_cons_succ] at hx
        have hx' : t.get? i' = some x := hx
        obtain ⟨i0, y, hle, hget, hpy, hfind, hmin⟩ := ih i' x hx' hpx
        refine ⟨i0 + 1, y, Nat.succ_le_succ hle, by rw [List.get?_cons_succ]; exact hget, hpy, ?_, ?_⟩
        · simp [List.find?, hpa', hfind]
        · intro j z hj hg
          cases j with
          | zero =>
            rw [List.get?_cons_zero] at hg
            injection hg with h0
            rw [← h0]
            exact hpa'
          | succ j' =>
            rw [List.get?_cons_succ] at hg
            exact hmin j' z (Nat.lt_of_succ_lt_succ hj) hg

theorem not_both_schemes (s : List Char)
    (h1 : pyStartsWith ("https://".toList) s = true)
    (h2 : pyStartsWith ("http://".toList) s = true) : False := by
  obtain ⟨t1, ht1⟩ := (pyStartsWith_iff _ _).1 h1
  obtain ⟨t2, ht2⟩ := (pyStartsWith_iff _ _).1 h2
  rw [ht1] at ht2
  rw [show ("https://".toList) = ['h', 't', 't', 'p', 's', ':', '/', '/'] from rfl,
    show ("http://".toList) = ['h', 't', 't', 'p', ':', '/', '/'] from rfl] at ht2
  simp only [List.cons_append, List.cons.injEq] at ht2
  exact absurd ht2.2.2.2.2.1 (by decide)

theorem matchUrlAt_some_shape (s u : List Char) (h : matchUrlAt s = some u) :
    (∃ run, u = ("https://".toList) ++ run) ∨ (∃ run, u = ("http://".toList) ++ run) := by
  unfold matchUrlAt at h
  by_cases hs : pyStartsWith ("https://".toList) s = true
  · rw [if_pos hs] at h
    by_cases hrun : ((s.drop 8).takeWhile (fun c => !pyIsSpace c)).isEmpty
    · rw [if_pos hrun] at h; cases h
    · rw [if_neg hrun] at h
      injection h with h0
      exact Or.inl ⟨_, h0.symm⟩
  · rw [if_neg hs] at h
    by_cases hs2 : pyStartsWith ("http://".toList) s = true
    · rw [if_pos hs2] at h
      by_cases hrun : ((s.drop 7).takeWhile (fun c => !pyIsSpace c)).isEmpty
      · rw [if_pos hrun] at h; cases h
      · rw [if_neg hrun] at h
        injection h with h0
        exact Or.inr ⟨_, h0.symm⟩
    · rw [if_neg hs2] at h; cases h

theorem findUrl_some_shape (s u : List Char) (h : findUrl s = some u) :
    (∃ run, u = ("https://".toList) ++ run) ∨ (∃ run, u = ("http://".toList) ++ run) := by
  induction s with
  | nil => cases h
  | cons c rest ih =>
    unfold findUrl at h
    rcases hm : matchUrlAt (c :: rest) with _ | u'
    · rw [hm] at h
      exact ih h
    · rw [hm] at h
      injection h with h0
      rw [← h0]
      exact matchUrlAt_some_shape _ _ hm

theorem pyLowerHasHttpKey (u : List Char)
    (h : (∃ run, u = ("https://".toList) ++ run) ∨ (∃ run, u = ("http://".toList) ++ run)) :
    pyIn ("http".toList) (pyLower u) = true := by
  have hu : ∃ rest, u = ("http".toList) ++ rest := by
    rcases h with ⟨run, rfl⟩ | ⟨run, rfl⟩
    · exact ⟨"s://".toList ++ run, by simp⟩
    · exact ⟨"://".toList ++ run, by simp⟩
  obtain ⟨rest, rfl⟩ := hu
  apply (pyIn_iff _ _).2
  refine ⟨[], pyLower rest, ?_⟩
  show pyLower (("http".toList) ++ rest) = [] ++ ("http".toList) ++ pyLower rest
  unfold pyLower
  rw [List.map_append]
  rfl

/-- C6: whenever the URL found in the input contains the keys of two table
entries at positions `i < j`, the detector's platform is the value of the
first matching table entry, whose position is at most `i` — earlier-listed
keys always win, deterministically. -/
theorem C6_platform_priority (content u : List Char) (i j : Nat)
    (ki vi kj vj : List Char)
    (hfind : findUrl content = some u) (hij : i < j)
    (hi : PLATFORM_TYPES.get? i = some (ki, vi))
    (hj : PLATFORM_TYPES.get? j = some (kj, vj))
    (hki : pyIn ki (pyLower u) = true) (hkj : pyIn kj (pyLower u) = true) :
    ∃ i0 k0 v0, i0 ≤ i ∧ PLATFORM_TYPES.get? i0 = some (k0, v0) ∧
      pyIn k0 (pyLower u) = true ∧
      (∀ j' k' v', j' < i0 → PLATFORM_TYPES.get? j' = some (k', v') →
        pyIn k' (pyLower u) = false) ∧
      detect_content_type content = DetectResult.url (some v0) u content := by
  obtain ⟨i0, y, hle, hget, hpy, hfound, hmin⟩ :=
    find?_first (fun kv => pyIn kv.1 (pyLower u)) PLATFORM_TYPES i (ki, vi) hi hki
  refine ⟨i0, y.1, y.2, hle, by rw [hget], hpy, ?_, ?_⟩
  · intro j' k' v' hj' hg'
    exact hmin j' (k', v') hj' hg'
  · unfold detect_content_type
    rw [hfind]
    simp only [hfound]

/-- Witness for C6: a URL containing both the weibo and okjike keys. -/
theorem C6_platform_priority_witness :
    ∃ i0 k0 v0, i0 ≤ 3 ∧ PLATFORM_TYPES.get? i0 = some (k0, v0) ∧
      pyIn k0 (pyLower ("http://weibo.com/okjike".toList)) = true ∧
      (∀ j' k' v', j' < i0 → PLATFORM_TYPES.get? j' = some (k', v') →
        pyIn k' (pyLower ("http://weibo.com/okjike".toList)) = false) ∧
      detect_content_type ("http://weibo.com/okjike".toList) =
        DetectResult.url (some ("微博".toList)) ("http://weibo.com/okjike".toList)
          ("http://weibo.com/okjike".toList) := by
  have h := C6_platform_priority ("http://weibo.com/okjike".toList)
    ("http://weibo.com/okjike".toList) 3 4
    ("weibo".toList) ("微博".toList) ("okjike".toList) ("即刻".toList)
    (by decide) (by decide) (by decide) (by decide) (by decide) (by decide)
  obtain ⟨i0, k0, v0, hle, hget, hk, hmin, hdet⟩ := h
  have hv0 : v0 = "微博".toList := by
    have hd : detect_content_type ("http://weibo.com/okjike".toList) =
        DetectResult.url (some ("微博".toList)) ("http://weibo.com/okjike".toList)
          ("http://weibo.com/okjike".toList) := by decide
    rw [hd] at hdet
    injection hdet with h1 h2 h3
    injection h1 with h4
    exact h4.symm
  exact ⟨i0, k0, v0, hle, hget, hk, hmin, by rw [← hv0] at *; exact hdet⟩
theorem matchUrlAt_iff (s u : List Char) :
    matchUrlAt s = some u ↔ urlTokenAt s u := by
  constructor
  · intro h
    unfold matchUrlAt at h
    by_cases hs : pyStartsWith ("https://".toList) s = true
    · rw [if_pos hs] at h
      by_cases hrun : ((s.drop 8).takeWhile (fun c => !pyIsSpace c)).isEmpty
      · rw [if_pos hrun] at h; cases h
      · rw [if_neg hrun] at h
        injection h with h0
        exact Or.inl ⟨hs, fun he => hrun (List.isEmpty_iff.mpr he), h0.symm⟩
    · rw [if_neg hs] at h
      by_cases hs2 : pyStartsWith ("http://".toList) s = true
      · rw [if_pos hs2] at h
        by_cases hrun : ((s.drop 7).takeWhile (fun c => !pyIsSpace c)).isEmpty
        · rw [if_pos hrun] at h; cases h
        · rw [if_neg hrun] at h
          injection h with h0
          exact Or.inr ⟨hs2, fun he => hrun (List.isEmpty_iff.mpr he), h0.symm⟩
      · rw [if_neg hs2] at h; cases h
  · intro h
    unfold matchUrlAt
    rcases h with ⟨hs, hrun, hu⟩ | ⟨hs, hrun, hu⟩
    · rw [if_pos hs, if_neg (fun he => hrun (List.isEmpty_iff.mp he)), hu]
    · have hs1 : ¬(pyStartsWith ("https://".toList) s = true) :=
        fun h1 => not_both_schemes s h1 hs
      rw [if_neg hs1, if_pos hs, if_neg (fun he => hrun (List.isEmpty_iff.mp he)), hu]

theorem matchUrlAt_none_of (s : List Char) (h : ∀ u, ¬ urlTokenAt s u) :
    matchUrlAt s = none := by
  rcases hm : matchUrlAt s with _ | u
  · rfl
  · exact absurd ((matchUrlAt_iff s u).1 hm) (h u)

theorem findUrl_eq_none (content : List Char)
    (h : ∀ i, matchUrlAt (content.drop i) = none) : findUrl content = none := by
  induction content with
  | nil => rfl
  | cons c rest ih =>
    unfold findUrl
    have h0 : matchUrlAt (c :: rest) = none := h 0
    rw [h0]
    exact ih (fun i => h (i + 1))

theorem findUrl_leftmost :
    ∀ (i : Nat) (content u : List Char),
    matchUrlAt (content.drop i) = some u →
    (∀ j, j < i → matchUrlAt (content.drop j) = none) →
    findUrl content = some u := by
  intro i
  induction i with
  | zero =>
    intro content u hm _
    rw [List.drop_zero] at hm
    cases content with
    | nil =>
      rw [show matchUrlAt ([] : List Char) = none from rfl] at hm
      cases hm
    | cons c rest =>
      unfold findUrl
      rw [hm]
  | succ i' ih =>
    intro content u hm hmin
    cases content with
    | nil =>
      rw [List.drop_nil] at hm
      rw [show matchUrlAt ([] : List Char) = none from rfl] at hm
      cases hm
    | cons c rest =>
      have h0 : matchUrlAt (c :: rest) = none := by
        have := hmin 0 (Nat.succ_pos _)
        rwa [List.drop_zero] at this
      unfold findUrl
      rw [h0]
      rw [List.drop_succ_cons] at hm
      exact ih rest u hm (fun j hj => by
        have := hmin (j + 1) (Nat.succ_lt_succ hj)
        rwa [List.drop_succ_cons] at this)

/-- C10: whenever `detect_content_type` classifies input as a URL, the
platform comes from the table lookup and is never `none`: every found URL is
scheme-prefixed, `"http"` is a key of `PLATFORM_TYPES`, so the first-match
loop always assigns a platform and the generic-web fallback branch after the
loop is unreachable. -/
theorem C10_platform_never_null (content : List Char) (pf : Option (List Char))
    (u orig : List Char)
    (h : detect_content_type content = DetectResult.url pf u orig) :
    ∃ kv, PLATFORM_TYPES.find? (fun kv2 => pyIn kv2.1 (pyLower u)) = some kv ∧
      pf = some kv.2 ∧ pf ≠ none := by
  unfold detect_content_type at h
  rcases hf : findUrl content with _ | u'
  · rw [hf] at h
    exact DetectResult.noConfusion h
  · rw [hf] at h
    dsimp only at h
    injection h with h1 h2 h3
    subst h2
    have hhttp : pyIn ("http".toList) (pyLower u') = true :=
      pyLowerHasHttpKey _ (findUrl_some_shape _ _ hf)
    obtain ⟨i0, y, _, _, hpy, hfound, _⟩ :=
      find?_first (fun kv2 => pyIn kv2.1 (pyLower u')) PLATFORM_TYPES 6
        (("http".toList), ("网页".toList)) (by decide) hhttp
    refine ⟨y, hfound, ?_, ?_⟩
    · rw [hfound] at h1
      exact h1.symm
    · rw [hfound] at h1
      rw [← h1]
      simp

/-- Witness for C10 at a concrete URL input. -/
theorem C10_platform_never_null_witness :
    ∃ kv, PLATFORM_TYPES.find?
        (fun kv2 => pyIn kv2.1 (pyLower ("http://example.org/x".toList))) = some kv ∧
      (some ("网页".toList) : Option (List Char)) = some kv.2 ∧
      (some ("网页".toList) : Option (List Char)) ≠ none :=
  C10_platform_never_null ("see http://example.org/x".toList) (some ("网页".toList))
    ("http://example.org/x".toList) ("see http://example.org/x".toList) (by decide)

/-- C9 (amended): `detect_content_type` scans for the first token matching
`https?://` followed by a nonempty maximal run of non-whitespace characters
(whitespace is the only terminator — the full-width comma separator belongs
to the XHS extractor, not to this detector), uses only that leftmost token,
and classifies URL-free input as TEXT carrying the full original text. -/
theorem C9_detector_scan_amended (content : List Char) :
    ((∀ i u, ¬ urlTokenAt (content.drop i) u) →
      detect_content_type content = DetectResult.text none content) ∧
    (∀ i u, urlTokenAt (content.drop i) u →
      (∀ j u', j < i → ¬ urlTokenAt (content.drop j) u') →
      ∃ pf, detect_content_type content = DetectResult.url pf u content) := by
  constructor
  · intro h
    have hnone : findUrl content = none :=
      findUrl_eq_none content (fun i => matchUrlAt_none_of _ (fun u => h i u))
    unfold detect_content_type
    rw [hnone]
  · intro i u htok hmin
    have hfind : findUrl content = some u :=
      findUrl_leftmost i content u ((matchUrlAt_iff _ u).2 htok)
        (fun j hj => matchUrlAt_none_of _ (fun u' => hmin j u' hj))
    refine ⟨(match PLATFORM_TYPES.find? (fun kv => pyIn kv.1 (pyLower u)) with
      | some kv => some kv.2
      | none =>
        if pyStartsWith ("http://".toList) u || pyStartsWith ("https://".toList) u then
          some ("网页".toList)
        else none), ?_⟩
    unfold detect_content_type
    rw [hfind]

/-- Witness for the amended C9: the leftmost URL token in a two-URL input. -/
theorem C9_detector_scan_amended_witness :
    ∃ pf, detect_content_type ("x https://ab y https://cd".toList) =
      DetectResult.url pf ("https://ab".toList) ("x https://ab y https://cd".toList) :=
  (C9_detector_scan_amended ("x https://ab y https://cd".toList)).2 2
    ("https://ab".toList) (Or.inl ⟨by decide, by decide, by decide⟩)
    (fun j u' hj htok => by
      have hj2 : j = 0 ∨ j = 1 := by omega
      rcases htok with ⟨hs, -, -⟩ | ⟨hs, -, -⟩ <;> rcases hj2 with rfl | rfl <;>
        exact absurd hs (by decide))

/-- C9 counterexample: the full-width comma does not terminate the URL in
`detect_content_type` — the matched URL runs through it, contradicting the
claimed terminator set. -/
theorem C9_detector_counterexample :
    urlOf (detect_content_type ("https://a，b".toList)) = some ("https://a，b".toList) ∧
    ¬(urlOf (detect_content_type ("https://a，b".toList)) = some ("https://a".toList)) := by
  constructor
  · decide
  · decide
theorem tryBackups_none (eo : List Char → Bool) (bl : List (List Char))
    (h : ∀ b ∈ bl, eo b = false) : tryBackups eo bl = none := by
  induction bl with
  | nil => rfl
  | cons b t ih =>
    unfold tryBackups
    rw [if_neg (by rw [h b (List.mem_cons_self _ _)]; exact Bool.false_ne_true)]
    exact ih (fun x hx => h x (List.mem_cons_of_mem _ hx))

theorem mem_enumFrom_of_mem {α : Type} :
    ∀ (l : List α) (n : Nat) (x : α), x ∈ l → ∃ i, (i, x) ∈ l.enumFrom n := by
  intro l
  induction l with
  | nil => intro n x hx; cases hx
  | cons a t ih =>
    intro n x hx
    rcases List.mem_cons.mp hx with rfl | hx2
    · exact ⟨n, List.mem_cons_self _ _⟩
    · obtain ⟨i, hi⟩ := ih (n + 1) x hx2
      exact ⟨i, List.mem_cons_of_mem _ hi⟩

theorem imagesFold_eq (eo : List Char → Bool)
    (pu : List Char → List Char × List (List Char)) :
    ∀ (imgs : List (List Char)) (acc : List Block × Nat × List (List Char)),
    imgs.foldl (fun acc img =>
      let r := perImage eo pu img
      (acc.1 ++ r.1, acc.2.1 + r.2.1, acc.2.2 ++ r.2.2)) acc =
    (acc.1 ++ imgs.flatMap (fun i => (perImage eo pu i).1),
     acc.2.1 + (imgs.map (fun i => (perImage eo pu i).2.1)).sum,
     acc.2.2 ++ imgs.flatMap (fun i => (perImage eo pu i).2.2)) := by
  intro imgs
  induction imgs with
  | nil => intro acc; simp
  | cons i t ih =>
    intro acc
    rw [List.foldl_cons, ih]
    simp [List.flatMap_cons, List.append_assoc, Nat.add_assoc]

theorem imagesFold_parts (eo : List Char → Bool)
    (pu : List Char → List Char × List (List Char))
    (backupImages imgs : List (List Char)) :
    imagesFold eo pu backupImages imgs =
    (imgs.flatMap (fun i => (perImage eo pu i).1),
     (imgs.map (fun i => (perImage eo pu i).2.1)).sum,
     backupImages ++ imgs.flatMap (fun i => (perImage eo pu i).2.2)) := by
  unfold imagesFold
  rw [imagesFold_eq]
  simp

theorem mem_section_of_mem_fold (eo : List Char → Bool)
    (pu : List Char → List Char × List (List Char))
    (images backupImages rawImages : List (List Char)) (blk : Block)
    (h : blk ∈ (imagesFold eo pu backupImages images).1)
    (hne : images.isEmpty = false) :
    blk ∈ composeImageSection eo pu images backupImages rawImages := by
  unfold composeImageSection
  simp only [hne, Bool.false_eq_true, if_false]
  by_cases hcnt : (imagesFold eo pu backupImages images).2.1 = 0
  · rw [if_pos hcnt]
    simp [List.mem_append, h]
  · rw [if_neg hcnt]
    simp [List.mem_append, h]

theorem mem_section_of_extras (eo : List Char → Bool)
    (pu : List Char → List Char × List (List Char))
    (images backupImages rawImages : List (List Char)) (blk : Block)
    (hcnt : (imagesFold eo pu backupImages images).2.1 = 0)
    (hne : images.isEmpty = false)
    (h : blk ∈ ([warningPara]
      ++ (if rawImages.isEmpty then [] else rawListing rawImages)
      ++ (if (imagesFold eo pu backupImages images).2.2.isEmpty then []
          else [Block.para [⟨"备用图片链接:".toList, none, true⟩]]
            ++ backupListing (imagesFold eo pu backupImages images).2.2))) :
    blk ∈ composeImageSection eo pu images backupImages rawImages := by
  unfold composeImageSection
  simp only [hne, Bool.false_eq_true, if_false]
  rw [if_pos hcnt]
  rcases List.mem_append.mp h with h2 | h2
  · rcases List.mem_append.mp h2 with h3 | h3
    · exact List.mem_append_left _ (List.mem_append_left _ (List.mem_append_right _ h3))
    · exact List.mem_append_left _ (List.mem_append_right _ h3)
  · exact List.mem_append_right _ h2

theorem mem_rawListing (l : List (List Char)) (x : List Char)
    (hx : x ∈ l) (hne : x ≠ []) :
    ∃ blk ∈ rawListing l, blockMentions blk x := by
  obtain ⟨i, hi⟩ := mem_enumFrom_of_mem l 0 x hx
  refine ⟨Block.para [⟨"原始图片 ".toList ++ (Nat.repr (i + 1)).toList ++ ": ".toList,
    none, false⟩, ⟨x, some x, false⟩], ?_, ?_⟩
  · unfold rawListing
    apply List.mem_flatMap.mpr
    refine ⟨(i, x), hi, ?_⟩
    rw [if_neg (by simp [List.isEmpty_iff, hne])]
    exact List.mem_singleton.mpr rfl
  · exact ⟨⟨x, some x, false⟩, by simp, rfl⟩

theorem mem_backupListing (l : List (List Char)) (x : List Char)
    (hx : x ∈ l) (hne : x ≠ []) :
    ∃ blk ∈ backupListing l, blockMentions blk x := by
  obtain ⟨i, hi⟩ := mem_enumFrom_of_mem l 0 x hx
  refine ⟨Block.para [⟨"备用链接 ".toList ++ (Nat.repr (i + 1)).toList ++ ": ".toList,
    none, false⟩, ⟨x, some x, false⟩], ?_, ?_⟩
  · unfold backupListing
    apply List.mem_flatMap.mpr
    refine ⟨(i, x), hi, ?_⟩
    rw [if_neg (by simp [List.isEmpty_iff, hne])]
    exact List.mem_singleton.mpr rfl
  · exact ⟨⟨x, some x, false⟩, by simp, rfl⟩

/-- C7: an image whose primary embed fails and whose every backup fails is
never silently dropped — the composer emits a text block carrying its
processed URL; and when zero images embedded across the whole set, the bold
warning block, a text listing of every (non-empty) raw image URL and a
listing of every collected backup URL are appended. -/
theorem C7_image_fallback_exhaustion (eo : List Char → Bool)
    (pu : List Char → List Char × List (List Char))
    (images backupImages rawImages : List (List Char)) :
    (∀ img, img ∈ images → img ≠ [] → eo (pu img).1 = false →
      (∀ b ∈ (pu img).2, eo b = false) →
      ∃ blk ∈ composeImageSection eo pu images backupImages rawImages,
        blockMentions blk (pu img).1) ∧
    ((imagesFold eo pu backupImages images).2.1 = 0 → images ≠ [] →
      warningPara ∈ composeImageSection eo pu images backupImages rawImages ∧
      (∀ r ∈ rawImages, r ≠ [] →
        ∃ blk ∈ composeImageSection eo pu images backupImages rawImages,
          blockMentions blk r) ∧
      (∀ b ∈ (imagesFold eo pu backupImages images).2.2, b ≠ [] →
        ∃ blk ∈ composeImageSection eo pu images backupImages rawImages,
          blockMentions blk b)) := by
  constructor
  · intro img himg hne heo hbk
    have hImagesNe : images.isEmpty = false := by
      cases images with
      | nil => cases himg
      | cons a t => rfl
    have hper : perImage eo pu img = ([unembeddablePara (pu img).1], 0, (pu img).2) := by
      unfold perImage
      rw [if_neg (by simp [List.isEmpty_iff, hne]),
        if_neg (by rw [heo]; exact Bool.false_ne_true),
        tryBackups_none eo (pu img).2 hbk]
    have hmem1 : unembeddablePara (pu img).1 ∈
        (imagesFold eo pu backupImages images).1 := by
      rw [imagesFold_parts]
      exact List.mem_flatMap.mpr ⟨img, himg, by
        rw [hper]; exact List.mem_singleton.mpr rfl⟩
    refine ⟨unembeddablePara (pu img).1,
      mem_section_of_mem_fold eo pu images backupImages rawImages _ hmem1 hImagesNe, ?_⟩
    exact ⟨⟨(pu img).1, some (pu img).1, false⟩, by simp [unembeddablePara], rfl⟩
  · intro hcnt hne
    have hImagesNe : images.isEmpty = false := by
      cases images with
      | nil => exact absurd rfl hne
      | cons a t => rfl
    refine ⟨?_, ?_, ?_⟩
    · exact mem_section_of_extras eo pu images backupImages rawImages _ hcnt hImagesNe
        (by simp)
    · intro r hr hrne
      have hRawNe : rawImages.isEmpty = false := by
        cases rawImages with
        | nil => cases hr
        | cons a t => rfl
      obtain ⟨blk, hblk, hm⟩ := mem_rawListing rawImages r hr hrne
      refine ⟨blk, ?_, hm⟩
      apply mem_section_of_extras eo pu images backupImages rawImages _ hcnt hImagesNe
      simp only [hRawNe, Bool.false_eq_true, if_false]
      simp [List.mem_append, hblk]
    · intro b hb hbne
      have hBkNe : (imagesFold eo pu backupImages images).2.2.isEmpty = false := by
        rcases hbk2 : (imagesFold eo pu backupImages images).2.2 with _ | ⟨a, t⟩
        · rw [hbk2] at hb; cases hb
        · rfl
      obtain ⟨blk, hblk, hm⟩ := mem_backupListing _ b hb hbne
      refine ⟨blk, ?_, hm⟩
      apply mem_section_of_extras eo pu images backupImages rawImages _ hcnt hImagesNe
      simp only [hBkNe, Bool.false_eq_true, if_false]
      simp [List.mem_append, hblk]

/-- Witness for C7: one image, failing embed oracle, no backups. -/
theorem C7_image_fallback_exhaustion_witness :
    ∃ blk ∈ composeImageSection (fun _ => false) (fun u => (u, [])) [['i']] [] [['r']],
      blockMentions blk ['i'] :=
  (C7_image_fallback_exhaustion (fun _ => false) (fun u => (u, [])) [['i']] [] [['r']]).1
    ['i'] (by decide) (by decide) rfl (fun b hb => absurd hb (List.not_mem_nil b))
/-- C8: for a destination database schema lacking the `Tag` property,
`verify_database_structure` fails with a message listing `Tag`, and
`process_content` returns that failure with `create_notion_page` never
invoked — the composer does not run. -/
theorem C8_schema_validation_gating (props : List (List Char × List Char))
    (extractSuccess createOk : Bool) (content : List Char)
    (hTag : propLookup props ("Tag".toList) = none) :
    (verify_database_structure (some props)).1 = false ∧
    pyIn ("Tag".toList) (verify_database_structure (some props)).2 = true ∧
    (process_content (some props) extractSuccess createOk content).success = false ∧
    (process_content (some props) extractSuccess createOk content).createCalled = false ∧
    pyIn ("Tag".toList)
      (process_content (some props) extractSuccess createOk content).message = true := by
  have hTagReq : (("Tag".toList, "multi_select".toList)) ∈ required_properties := by decide
  have hmemMissing : ("Tag".toList) ∈ (required_properties.filter
      (fun rp => (propLookup props rp.1).isNone)).map (fun rp => rp.1) := by
    apply List.mem_map.mpr
    refine ⟨("Tag".toList, "multi_select".toList), ?_, rfl⟩
    apply List.mem_filter.mpr
    refine ⟨hTagReq, ?_⟩
    show (propLookup props ("Tag".toList)).isNone = true
    rw [hTag]
    rfl
  have hne : (required_properties.filter
      (fun rp => (propLookup props rp.1).isNone)).map (fun rp => rp.1) ≠ [] :=
    List.ne_nil_of_mem hmemMissing
  have hEmpty : ((required_properties.filter
      (fun rp => (propLookup props rp.1).isNone)).map (fun rp => rp.1)).isEmpty = false := by
    cases h : ((required_properties.filter
        (fun rp => (propLookup props rp.1).isNone)).map (fun rp => rp.1)).isEmpty
    · rfl
    · exact absurd (List.isEmpty_iff.mp h) hne
  have hall : ∀ x ∈ ("Tag".toList), pyIsSpace x = false := by decide
  have hv1 : (verify_database_structure (some props)).1 = false := by
    unfold verify_database_structure
    simp only [hEmpty, Bool.false_and, Bool.false_eq_true, if_false]
  have hv2 : pyIn ("Tag".toList) (verify_database_structure (some props)).2 = true := by
    unfold verify_database_structure
    simp only [hEmpty, Bool.false_and, Bool.false_eq_true, if_false]
    apply pyIn_pyStrip _ _ hall
    apply pyIn_append_left
    apply pyIn_append_left
    apply pyIn_append_right
    exact pyIn_pyJoin _ _ _ hmemMissing
  have hres : process_content (some props) extractSuccess createOk content =
      ⟨false, "Notion数据库结构不符合要求: ".toList ++
        (verify_database_structure (some props)).2, false⟩ := by
    unfold process_content
    simp only [hv1, Bool.not_false, if_true]
  refine ⟨hv1, hv2, ?_, ?_, ?_⟩
  · rw [hres]
  · rw [hres]
  · rw [hres]
    exact pyIn_append_right _ _ _ hv2

/-- Witness for C8 at a concrete schema lacking `Tag`. -/
theorem C8_schema_validation_gating_witness :
    (verify_database_structure (some [("Name".toList, "title".toList),
      ("Title/Content".toList, "rich_text".toList), ("Source".toList, "select".toList),
      ("Category".toList, "select".toList), ("URL".toList, "url".toList)])).1 = false ∧
    pyIn ("Tag".toList) (verify_database_structure (some [("Name".toList, "title".toList),
      ("Title/Content".toList, "rich_text".toList), ("Source".toList, "select".toList),
      ("Category".toList, "select".toList), ("URL".toList, "url".toList)])).2 = true ∧
    (process_content (some [("Name".toList, "title".toList),
      ("Title/Content".toList, "rich_text".toList), ("Source".toList, "select".toList),
      ("Category".toList, "select".toList), ("URL".toList, "url".toList)])
      true true ("x".toList)).success = false ∧
    (process_content (some [("Name".toList, "title".toList),
      ("Title/Content".toList, "rich_text".toList), ("Source".toList, "select".toList),
      ("Category".toList, "select".toList), ("URL".toList, "url".toList)])
      true true ("x".toList)).createCalled = false ∧
    pyIn ("Tag".toList)
      (process_content (some [("Name".toList, "title".toList),
        ("Title/Content".toList, "rich_text".toList), ("Source".toList, "select".toList),
        ("Category".toList, "select".toList), ("URL".toList, "url".toList)])
        true true ("x".toList)).message = true :=
  C8_schema_validation_gating [("Name".toList, "title".toList),
    ("Title/Content".toList, "rich_text".toList), ("Source".toList, "select".toList),
    ("Category".toList, "select".toList), ("URL".toList, "url".toList)]
    true true ("x".toList) (by decide)
